import Mathlib

/-!
Verification development for the shtick generation engine.

The definitions below are shallow embeddings of the Python sources:

* shells.py — the shell dialect table SHELLS, escape_function_body, and the
  strict quoting it delegates to (Python stdlib shlex.quote);
* security.py — validate_key / validate_value and the key pattern;
* config.py — escape_toml_value, the fallback TOML writer of
  save_config_securely, GroupData, Config group/activation operations;
* shtick.py — ShtickManager._add_item;
* commands.py — ShtickCommands.activate_group / deactivate_group.

Strings are modelled as Lean String / List Char (Python str is a sequence of
unicode code points, as is Lean String.data).  External semantics that the
code relies on (the POSIX shell word reader, Python shlex.quote, tomllib and
tomli_w) are embedded from their published behaviour, restricted to the
fragments the repository exercises.
-/

namespace Shtick

/-- Characters in the safe class of Python shlex.quote: the unsafe-finding
regex with re.ASCII finds nothing, i.e. every character is an ASCII word
character or one of at-sign, percent, plus, equals, colon, comma, dot,
slash, hyphen. -/
def isShlexSafe (c : Char) : Bool :=
  decide (('a' ≤ c ∧ c ≤ 'z') ∨ ('A' ≤ c ∧ c ≤ 'Z') ∨ ('0' ≤ c ∧ c ≤ '9') ∨
    c = '_' ∨ c = '@' ∨ c = '%' ∨ c = '+' ∨ c = '=' ∨ c = ':' ∨
    c = ',' ∨ c = '.' ∨ c = '/' ∨ c = '-')

/-- Python str.replace with a single-character pattern: every occurrence of
old is replaced by new, all other characters are kept. -/
def replaceChar (old : Char) (new : List Char) : List Char → List Char
  | [] => []
  | c :: rest => (if c = old then new else [c]) ++ replaceChar old new rest

/-- Python shlex.quote on the character list of the argument: the empty
string becomes two single quotes, an all-safe string is returned unchanged,
anything else is wrapped in single quotes with each embedded single quote
replaced by the quote-double-quote idiom. -/
def shlexQuoteCore (s : List Char) : List Char :=
  if s = [] then ['\'', '\'']
  else if s.all isShlexSafe then s
  else '\'' :: (replaceChar '\'' ['\'', '"', '\'', '"', '\''] s ++ ['\''])

/-- Python shlex.quote, the strict-quoting escape every SHELLS entry uses. -/
def shlex_quote (s : String) : String := String.mk (shlexQuoteCore s.data)

/-- Modes of the POSIX word reader: outside quotes, inside single quotes,
inside double quotes. -/
inductive QMode where
  | normal
  | single
  | double
deriving DecidableEq

/-- Reader for one POSIX shell word.  It returns the decoded literal word
exactly when the input is a single word whose unquoted characters are plain
literal characters; it returns none whenever the input contains an
unterminated quote, an unquoted metacharacter or whitespace, or a dollar
sign or backtick (directly or inside double quotes) that would trigger
expansion or command substitution instead of a literal.  This is the
escape_then_shell_parse oracle of the round-trip law. -/
def parseW : QMode → List Char → Option (List Char)
  | QMode.normal, [] => some []
  | QMode.single, [] => none
  | QMode.double, [] => none
  | QMode.normal, c :: rest =>
      if c = '\'' then parseW QMode.single rest
      else if c = '"' then parseW QMode.double rest
      else if c = '\\' then
        match rest with
        | [] => none
        | d :: rest2 => (parseW QMode.normal rest2).map fun l => d :: l
      else if isShlexSafe c then (parseW QMode.normal rest).map fun l => c :: l
      else none
  | QMode.single, c :: rest =>
      if c = '\'' then parseW QMode.normal rest
      else (parseW QMode.single rest).map fun l => c :: l
  | QMode.double, c :: rest =>
      if c = '"' then parseW QMode.normal rest
      else if c = '$' ∨ c.toNat = 96 then none
      else if c = '\\' then
        match rest with
        | [] => none
        | d :: rest2 =>
            if d = '$' ∨ d.toNat = 96 ∨ d = '"' ∨ d = '\\' then
              (parseW QMode.double rest2).map fun l => d :: l
            else (parseW QMode.double rest2).map fun l => '\\' :: d :: l
      else (parseW QMode.double rest).map fun l => c :: l

/-- Decoding one POSIX shell word from a string. -/
def shellParseWord (s : String) : Option String :=
  (parseW QMode.normal s.data).map String.mk

theorem parseW_normal_safe (c : Char) (rest : List Char)
    (h : isShlexSafe c = true) :
    parseW QMode.normal (c :: rest) = (parseW QMode.normal rest).map fun l => c :: l := by
  have h1 : ¬ c = '\'' := by rintro rfl; exact absurd h (by decide)
  have h2 : ¬ c = '"' := by rintro rfl; exact absurd h (by decide)
  have h3 : ¬ c = '\\' := by rintro rfl; exact absurd h (by decide)
  cases rest <;> simp [parseW, h1, h2, h3, h]

theorem parseW_normal_quote (x : List Char) :
    parseW QMode.normal ('\'' :: x) = parseW QMode.single x := by
  cases x <;> simp [parseW]

theorem parseW_normal_dq (x : List Char) :
    parseW QMode.normal ('"' :: x) = parseW QMode.double x := by
  cases x <;> simp [parseW]

theorem parseW_single_quote (x : List Char) :
    parseW QMode.single ('\'' :: x) = parseW QMode.normal x := by
  simp [parseW]

theorem parseW_single_other (c : Char) (x : List Char) (hc : ¬ c = '\'') :
    parseW QMode.single (c :: x) = (parseW QMode.single x).map fun l => c :: l := by
  simp [parseW, hc]

theorem parseW_double_quote (x : List Char) :
    parseW QMode.double ('\'' :: x) = (parseW QMode.double x).map fun l => '\'' :: l := by
  cases x <;> simp [parseW]

theorem parseW_double_dq (x : List Char) :
    parseW QMode.double ('"' :: x) = parseW QMode.normal x := by
  cases x <;> simp [parseW]

theorem parseW_all_safe (l : List Char) (h : l.all isShlexSafe = true) :
    parseW QMode.normal l = some l := by
  induction l with
  | nil => simp [parseW]
  | cons c rest ih =>
    rw [List.all_cons, Bool.and_eq_true] at h
    rw [parseW_normal_safe c rest h.1, ih h.2]
    rfl

theorem parseW_single_encode (s : List Char) (tail : List Char) :
    parseW QMode.single (replaceChar '\'' ['\'', '"', '\'', '"', '\''] s ++ '\'' :: tail) =
      (parseW QMode.normal tail).map fun l => s ++ l := by
  induction s with
  | nil =>
    simp only [replaceChar, List.nil_append, parseW_single_quote]
    simp
  | cons c rest ih =>
    by_cases hc : c = '\''
    · subst hc
      simp only [replaceChar, eq_self_iff_true, if_true, List.append_assoc,
        List.cons_append, List.nil_append]
      rw [parseW_single_quote, parseW_normal_dq, parseW_double_quote, parseW_double_dq,
        parseW_normal_quote, ih, Option.map_map]
      rfl
    · simp only [replaceChar, if_neg hc, List.cons_append, List.nil_append]
      rw [parseW_single_other c _ hc, ih, Option.map_map]
      rfl

theorem shlexQuoteCore_roundTrip (l : List Char) :
    parseW QMode.normal (shlexQuoteCore l) = some l := by
  unfold shlexQuoteCore
  by_cases h0 : l = []
  · subst h0
    simp only [eq_self_iff_true, if_true]
    rw [parseW_normal_quote, parseW_single_quote]
    simp [parseW]
  · by_cases h1 : l.all isShlexSafe
    · simp only [if_neg h0, if_pos h1]
      exact parseW_all_safe l h1
    · simp only [if_neg h0, if_neg h1]
      rw [parseW_normal_quote,
        show replaceChar '\'' ['\'', '"', '\'', '"', '\''] l ++ ['\''] =
          replaceChar '\'' ['\'', '"', '\'', '"', '\''] l ++ '\'' :: [] from rfl,
        parseW_single_encode l []]
      simp [parseW]

/-- Claim C1: for every input string v — including the empty string and
strings containing single quotes, double quotes, backticks, dollar signs and
newlines — the strict-quoting escape used by the SHELLS templates
(shlex.quote) produces a token that the POSIX-style shell word reader
decodes back to exactly v as a single word; in particular no raw backtick,
dollar-paren or stray quote in v can escape the quoted literal, because the
reader rejects any input in which such a character is live. -/
theorem shlex_quote_posix_roundTrip (v : String) :
    shellParseWord (shlex_quote v) = some v := by
  unfold shellParseWord shlex_quote
  rw [show (String.mk (shlexQuoteCore v.data)).data = shlexQuoteCore v.data from rfl]
  rw [shlexQuoteCore_roundTrip v.data]
  rfl

/-- Relaxed body escaping from shells.py: body.replace with the single-quote
neutralising idiom. -/
def escape_function_body (s : String) : String :=
  String.mk (replaceChar '\'' ['\'', '"', '\'', '"', '\''] s.data)

theorem replaceChar_eq_bind (old : Char) (new : List Char) (l : List Char) :
    replaceChar old new l = l.flatMap fun c => if c = old then new else [c] := by
  induction l with
  | nil => rfl
  | cons c rest ih => simp [replaceChar, ih]

/-- Claim C7: escape_function_body is the per-character map that sends every
single quote to the quote-double-quote-quote-double-quote-quote sequence and
every other character to itself; being a total function it never fails. -/
theorem escape_function_body_char_map (s : String) :
    (escape_function_body s).data =
      s.data.flatMap fun c => if c = '\'' then ['\'', '"', '\'', '"', '\''] else [c] := by
  unfold escape_function_body
  exact replaceChar_eq_bind '\'' ['\'', '"', '\'', '"', '\''] s.data

/-- Shell dialect record from shells.py, holding the three rendering
templates (alias, environment variable, function). -/
structure ShellDialect where
  dname : String
  alias_fmt : String → String → String
  env_fmt : String → String → String
  function_fmt : String → String → String

/-- Dialect entry for bash from the SHELLS table. -/
def bashDialect : ShellDialect :=
  { dname := "bash"
    alias_fmt := fun k v => "alias " ++ shlex_quote k ++ "=" ++ shlex_quote v ++ "\n"
    env_fmt := fun k v => "export " ++ shlex_quote k ++ "=" ++ shlex_quote v ++ "\n"
    function_fmt := fun k v =>
      shlex_quote k ++ "() \x7b\n    " ++ escape_function_body v ++ "\n\x7d\n" }

/-- Dialect entry for zsh from the SHELLS table. -/
def zshDialect : ShellDialect :=
  { dname := "zsh"
    alias_fmt := fun k v => "alias " ++ shlex_quote k ++ "=" ++ shlex_quote v ++ "\n"
    env_fmt := fun k v => "export " ++ shlex_quote k ++ "=" ++ shlex_quote v ++ "\n"
    function_fmt := fun k v =>
      shlex_quote k ++ "() \x7b\n    " ++ escape_function_body v ++ "\n\x7d\n" }

/-- Dialect entry for fish from the SHELLS table. -/
def fishDialect : ShellDialect :=
  { dname := "fish"
    alias_fmt := fun k v => "alias " ++ shlex_quote k ++ " " ++ shlex_quote v ++ "\n"
    env_fmt := fun k v => "set -x " ++ shlex_quote k ++ " " ++ shlex_quote v ++ "\n"
    function_fmt := fun k v =>
      "function " ++ shlex_quote k ++ "\n    " ++ escape_function_body v ++ "\nend\n" }

/-- Dialect entry for ksh from the SHELLS table. -/
def kshDialect : ShellDialect :=
  { dname := "ksh"
    alias_fmt := fun k v => "alias " ++ shlex_quote k ++ "=" ++ shlex_quote v ++ "\n"
    env_fmt := fun k v => "export " ++ shlex_quote k ++ "=" ++ shlex_quote v ++ "\n"
    function_fmt := fun k v =>
      shlex_quote k ++ "() \x7b\n    " ++ escape_function_body v ++ "\n\x7d\n" }

/-- Dialect entry for mksh from the SHELLS table. -/
def mkshDialect : ShellDialect :=
  { dname := "mksh"
    alias_fmt := fun k v => "alias " ++ shlex_quote k ++ "=" ++ shlex_quote v ++ "\n"
    env_fmt := fun k v => "export " ++ shlex_quote k ++ "=" ++ shlex_quote v ++ "\n"
    function_fmt := fun k v =>
      shlex_quote k ++ "() \x7b\n    " ++ escape_function_body v ++ "\n\x7d\n" }

/-- Dialect entry for yash from the SHELLS table. -/
def yashDialect : ShellDialect :=
  { dname := "yash"
    alias_fmt := fun k v => "alias " ++ shlex_quote k ++ "=" ++ shlex_quote v ++ "\n"
    env_fmt := fun k v => "export " ++ shlex_quote k ++ "=" ++ shlex_quote v ++ "\n"
    function_fmt := fun k v =>
      shlex_quote k ++ "() \x7b\n    " ++ escape_function_body v ++ "\n\x7d\n" }

/-- Dialect entry for dash from the SHELLS table. -/
def dashDialect : ShellDialect :=
  { dname := "dash"
    alias_fmt := fun k v => "alias " ++ shlex_quote k ++ "=" ++ shlex_quote v ++ "\n"
    env_fmt := fun k v => "export " ++ shlex_quote k ++ "=" ++ shlex_quote v ++ "\n"
    function_fmt := fun k v =>
      shlex_quote k ++ "() \x7b\n    " ++ escape_function_body v ++ "\n\x7d\n" }

/-- Dialect entry for csh from the SHELLS table: function_fmt emits a comment
instead of a definition. -/
def cshDialect : ShellDialect :=
  { dname := "csh"
    alias_fmt := fun k v => "alias " ++ shlex_quote k ++ " " ++ shlex_quote v ++ "\n"
    env_fmt := fun k v => "setenv " ++ shlex_quote k ++ " " ++ shlex_quote v ++ "\n"
    function_fmt := fun k _ =>
      "# csh doesn't support functions - skipping " ++ shlex_quote k ++ "\n" }

/-- Dialect entry for tcsh from the SHELLS table: function_fmt emits a
comment instead of a definition. -/
def tcshDialect : ShellDialect :=
  { dname := "tcsh"
    alias_fmt := fun k v => "alias " ++ shlex_quote k ++ " " ++ shlex_quote v ++ "\n"
    env_fmt := fun k v => "setenv " ++ shlex_quote k ++ " " ++ shlex_quote v ++ "\n"
    function_fmt := fun k _ =>
      "# tcsh doesn't support functions - skipping " ++ shlex_quote k ++ "\n" }

/-- Dialect entry for xonsh from the SHELLS table. -/
def xonshDialect : ShellDialect :=
  { dname := "xonsh"
    alias_fmt := fun k v => "aliases[" ++ shlex_quote k ++ "] = " ++ shlex_quote v ++ "\n"
    env_fmt := fun k v => "$\x7b" ++ shlex_quote k ++ "\x7d = " ++ shlex_quote v ++ "\n"
    function_fmt := fun k v =>
      "def " ++ shlex_quote k ++ "():\n    return " ++ shlex_quote v ++ "\n" }

/-- Dialect entry for elvish from the SHELLS table. -/
def elvishDialect : ShellDialect :=
  { dname := "elvish"
    alias_fmt := fun k v =>
      "fn " ++ shlex_quote k ++ " \x7b " ++ escape_function_body v ++ " \x7d\n"
    env_fmt := fun k v => "E:" ++ shlex_quote k ++ " = " ++ shlex_quote v ++ "\n"
    function_fmt := fun k v =>
      "fn " ++ shlex_quote k ++ " \x7b " ++ escape_function_body v ++ " \x7d\n" }

/-- Dialect entry for rc from the SHELLS table. -/
def rcDialect : ShellDialect :=
  { dname := "rc"
    alias_fmt := fun k v =>
      "fn " ++ shlex_quote k ++ " \x7b " ++ escape_function_body v ++ " \x7d\n"
    env_fmt := fun k v => shlex_quote k ++ "=" ++ shlex_quote v ++ "\n"
    function_fmt := fun k v =>
      "fn " ++ shlex_quote k ++ " \x7b " ++ escape_function_body v ++ " \x7d\n" }

/-- Dialect entry for es from the SHELLS table. -/
def esDialect : ShellDialect :=
  { dname := "es"
    alias_fmt := fun k v =>
      "fn-" ++ shlex_quote k ++ " = \x7b " ++ escape_function_body v ++ " \x7d\n"
    env_fmt := fun k v => shlex_quote k ++ "=" ++ shlex_quote v ++ "\n"
    function_fmt := fun k v =>
      "fn-" ++ shlex_quote k ++ " = \x7b " ++ escape_function_body v ++ " \x7d\n" }

/-- Dialect entry for nushell from the SHELLS table. -/
def nushellDialect : ShellDialect :=
  { dname := "nushell"
    alias_fmt := fun k v =>
      "alias " ++ shlex_quote k ++ " = " ++ escape_function_body v ++ "\n"
    env_fmt := fun k v => "let-env " ++ shlex_quote k ++ " = " ++ shlex_quote v ++ "\n"
    function_fmt := fun k v =>
      "def " ++ shlex_quote k ++ " [] \x7b " ++ escape_function_body v ++ " \x7d\n" }

/-- Dialect entry for powershell from the SHELLS table. -/
def powershellDialect : ShellDialect :=
  { dname := "powershell"
    alias_fmt := fun k v =>
      "Set-Alias -Name " ++ shlex_quote k ++ " -Value " ++ shlex_quote v ++ "\n"
    env_fmt := fun k v => "$env:" ++ shlex_quote k ++ " = " ++ shlex_quote v ++ "\n"
    function_fmt := fun k v =>
      "function " ++ shlex_quote k ++ " \x7b " ++ escape_function_body v ++ " \x7d\n" }

/-- Dialect entry for oil from the SHELLS table. -/
def oilDialect : ShellDialect :=
  { dname := "oil"
    alias_fmt := fun k v => "alias " ++ shlex_quote k ++ "=" ++ shlex_quote v ++ "\n"
    env_fmt := fun k v => "export " ++ shlex_quote k ++ "=" ++ shlex_quote v ++ "\n"
    function_fmt := fun k v =>
      shlex_quote k ++ "() \x7b\n    " ++ escape_function_body v ++ "\n\x7d\n" }

/-- Fallback default dialect from the SHELLS table. -/
def defaultDialect : ShellDialect :=
  { dname := "default"
    alias_fmt := fun k v => "alias " ++ shlex_quote k ++ "=" ++ shlex_quote v ++ "\n"
    env_fmt := fun k v => "export " ++ shlex_quote k ++ "=" ++ shlex_quote v ++ "\n"
    function_fmt := fun k v =>
      shlex_quote k ++ "() \x7b\n    " ++ escape_function_body v ++ "\n\x7d\n" }

/-- The SHELLS registry from shells.py, in source order. -/
def SHELLS : List (String × ShellDialect) :=
  [("bash", bashDialect), ("zsh", zshDialect), ("fish", fishDialect),
   ("ksh", kshDialect), ("mksh", mkshDialect), ("yash", yashDialect),
   ("dash", dashDialect), ("csh", cshDialect), ("tcsh", tcshDialect),
   ("xonsh", xonshDialect), ("elvish", elvishDialect), ("rc", rcDialect),
   ("es", esDialect), ("nushell", nushellDialect),
   ("powershell", powershellDialect), ("oil", oilDialect),
   ("default", defaultDialect)]

/-- Lookup with fallback to the default dialect, from get_shell_syntax. -/
def get_shell_syntax (shell_name : String) : ShellDialect :=
  match SHELLS.lookup shell_name with
  | some d => d
  | none => defaultDialect

/-- Predicate on rendered output: one comment line, i.e. it starts with a
hash and a space, ends with a newline and contains exactly one newline. -/
def isSingleCommentLineL (l : List Char) : Bool :=
  match l with
  | '#' :: ' ' :: _ => (l.count '\n' == 1) && (l.getLast? == some '\n')
  | _ => false

theorem mem_replaceChar {c0 old : Char} {new l : List Char}
    (h : c0 ∈ replaceChar old new l) : c0 ∈ new ∨ c0 ∈ l := by
  induction l with
  | nil => simp [replaceChar] at h
  | cons c rest ih =>
    unfold replaceChar at h
    rw [List.mem_append] at h
    rcases h with h | h
    · by_cases hc : c = old
      · rw [if_pos hc] at h; exact Or.inl h
      · rw [if_neg hc] at h
        simp at h
        subst h
        exact Or.inr (List.mem_cons_self c0 rest)
    · rcases ih h with h2 | h2
      · exact Or.inl h2
      · exact Or.inr (List.mem_cons_of_mem c h2)

theorem shlexQuoteCore_no_newline {k : List Char} (h : '\n' ∉ k) :
    '\n' ∉ shlexQuoteCore k := by
  unfold shlexQuoteCore
  by_cases h0 : k = []
  · rw [if_pos h0]; decide
  · by_cases h1 : k.all isShlexSafe
    · rw [if_neg h0, if_pos h1]; exact h
    · rw [if_neg h0, if_neg h1]
      intro hmem
      rw [List.mem_cons] at hmem
      rcases hmem with hq | hmem
      · exact absurd hq (by decide)
      · rw [List.mem_append] at hmem
        rcases hmem with hmem | hmem
        · rcases mem_replaceChar hmem with h2 | h2
          · exact absurd h2 (by decide)
          · exact h h2
        · simp at hmem

/-- Claim C8 counterexample: with a key containing a newline, the csh
comment emitted by function_fmt is not a single comment line (the second
physical line falls outside the comment), so the claim quantified over all
keys fails. -/
theorem csh_comment_newline_key_breaks :
    isSingleCommentLineL ((cshDialect.function_fmt "a\nb" "body").data) = false := by
  decide

/-- Claim C8 (amended): for every key without embedded newlines (every
validated key in particular) and every body, the csh and tcsh function_fmt
templates return a single well-formed comment line: it starts with hash
space, ends with its only newline, and consists of the fixed comment text
followed by the shlex-quoted key; the body is ignored entirely, so no body
can produce a function definition or an error. -/
theorem csh_tcsh_comment_line_amended (k v : String) (hk : '\n' ∉ k.data) :
    isSingleCommentLineL ((cshDialect.function_fmt k v).data) = true ∧
    isSingleCommentLineL ((tcshDialect.function_fmt k v).data) = true ∧
    (cshDialect.function_fmt k v).data =
      ("# csh doesn't support functions - skipping ").data ++
        (shlex_quote k).data ++ ['\n'] ∧
    (tcshDialect.function_fmt k v).data =
      ("# tcsh doesn't support functions - skipping ").data ++
        (shlex_quote k).data ++ ['\n'] ∧
    (∀ v2 : String, cshDialect.function_fmt k v = cshDialect.function_fmt k v2) ∧
    (∀ v2 : String, tcshDialect.function_fmt k v = tcshDialect.function_fmt k v2) := by
  have hq : '\n' ∉ (shlex_quote k).data := shlexQuoteCore_no_newline hk
  have hqc : (shlex_quote k).data.count '\n' = 0 := List.count_eq_zero.mpr hq
  have hcount : ∀ pre : List Char, pre.count '\n' = 0 →
      (pre ++ ((shlex_quote k).data ++ ['\n'])).count '\n' = 1 := by
    intro pre hpre
    rw [List.count_append, List.count_append, hpre, hqc]
    rfl
  have hlast : ∀ pre : List Char,
      (pre ++ ((shlex_quote k).data ++ ['\n'])).getLast? = some '\n' := by
    intro pre
    rw [← List.append_assoc]
    exact List.getLast?_concat _
  refine ⟨?_, ?_, ?_, ?_, fun v2 => rfl, fun v2 => rfl⟩
  · show isSingleCommentLineL
      (("# csh doesn't support functions - skipping " ++ shlex_quote k ++ "\n").data) = true
    rw [show ("# csh doesn't support functions - skipping " ++ shlex_quote k ++ "\n").data
        = '#' :: ' ' :: (("csh doesn't support functions - skipping ").data ++
          ((shlex_quote k).data ++ ['\n'])) from rfl]
    unfold isSingleCommentLineL
    rw [show ('#' :: ' ' :: (("csh doesn't support functions - skipping ").data ++
        ((shlex_quote k).data ++ ['\n']))).count '\n'
        = (('#' :: ' ' :: ("csh doesn't support functions - skipping ").data) ++
          ((shlex_quote k).data ++ ['\n'])).count '\n' from rfl]
    rw [hcount _ (by decide)]
    rw [show ('#' :: ' ' :: (("csh doesn't support functions - skipping ").data ++
        ((shlex_quote k).data ++ ['\n']))).getLast?
        = (('#' :: ' ' :: ("csh doesn't support functions - skipping ").data) ++
          ((shlex_quote k).data ++ ['\n'])).getLast? from rfl]
    rw [hlast]
    rfl
  · show isSingleCommentLineL
      (("# tcsh doesn't support functions - skipping " ++ shlex_quote k ++ "\n").data) = true
    rw [show ("# tcsh doesn't support functions - skipping " ++ shlex_quote k ++ "\n").data
        = '#' :: ' ' :: (("tcsh doesn't support functions - skipping ").data ++
          ((shlex_quote k).data ++ ['\n'])) from rfl]
    unfold isSingleCommentLineL
    rw [show ('#' :: ' ' :: (("tcsh doesn't support functions - skipping ").data ++
        ((shlex_quote k).data ++ ['\n']))).count '\n'
        = (('#' :: ' ' :: ("tcsh doesn't support functions - skipping ").data) ++
          ((shlex_quote k).data ++ ['\n'])).count '\n' from rfl]
    rw [hcount _ (by decide)]
    rw [show ('#' :: ' ' :: (("tcsh doesn't support functions - skipping ").data ++
        ((shlex_quote k).data ++ ['\n']))).getLast?
        = (('#' :: ' ' :: ("tcsh doesn't support functions - skipping ").data) ++
          ((shlex_quote k).data ++ ['\n'])).getLast? from rfl]
    rw [hlast]
    rfl
  · rfl
  · rfl

/-- Witness for the amended claim C8 at a concrete key and body. -/
theorem csh_tcsh_comment_line_amended_witness :
    ('\n' ∉ ("myfn" : String).data) ∧
    isSingleCommentLineL ((cshDialect.function_fmt "myfn" "echo hi; rm -rf $x").data) = true :=
  ⟨by decide, (csh_tcsh_comment_line_amended "myfn" "echo hi; rm -rf $x" (by decide)).1⟩

/-- Character class of the first character of the key validation pattern of
security.py: a letter or an underscore. -/
def isKeyStart (c : Char) : Bool :=
  decide (('a' ≤ c ∧ c ≤ 'z') ∨ ('A' ≤ c ∧ c ≤ 'Z') ∨ c = '_')

/-- Character class of the remaining characters of the key validation
pattern: a letter, a digit, an underscore or a hyphen. -/
def isKeyChar (c : Char) : Bool :=
  isKeyStart c || decide (('0' ≤ c ∧ c ≤ '9') ∨ c = '-')

/-- Anchored (full-match) reading of the key validation regex: one key-start
character followed by key characters, matching the whole string. -/
def keyCoreMatch (l : List Char) : Bool :=
  match l with
  | [] => false
  | c :: rest => isKeyStart c && rest.all isKeyChar

theorem isKeyChar_shlexSafe (c : Char) (h : isKeyChar c = true) :
    isShlexSafe c = true := by
  unfold isKeyChar isKeyStart at h
  unfold isShlexSafe
  rw [Bool.or_eq_true, decide_eq_true_eq, decide_eq_true_eq] at h
  rw [decide_eq_true_eq]
  tauto

/-- Claim C9: every nonempty key that fully matches the validation pattern
consists of shlex-safe characters, so shlex.quote returns it verbatim and
every dialect template embeds the validated key without added quoting. -/
theorem valid_key_shlex_quote_id (k : String) (h : keyCoreMatch k.data = true) :
    shlex_quote k = k := by
  have hne : k.data ≠ [] := by
    intro e
    rw [e] at h
    exact absurd h (by decide)
  have hsafe : k.data.all isShlexSafe = true := by
    cases hd : k.data with
    | nil => exact absurd hd hne
    | cons c rest =>
      rw [hd] at h
      unfold keyCoreMatch at h
      rw [Bool.and_eq_true] at h
      rw [List.all_cons, Bool.and_eq_true]
      constructor
      · exact isKeyChar_shlexSafe c (by unfold isKeyChar; rw [Bool.or_eq_true]; exact Or.inl h.1)
      · rw [List.all_eq_true] at h ⊢
        intro x hx
        exact isKeyChar_shlexSafe x (h.2 x hx)
  unfold shlex_quote
  rw [show shlexQuoteCore k.data = k.data from by
    unfold shlexQuoteCore; rw [if_neg hne, if_pos hsafe]]

/-- Witness for claim C9 at a concrete validated key. -/
theorem valid_key_shlex_quote_id_witness :
    keyCoreMatch ("my-alias_2").data = true ∧ shlex_quote "my-alias_2" = "my-alias_2" :=
  ⟨by decide, valid_key_shlex_quote_id "my-alias_2" (by decide)⟩

/-- Python re.match of the compiled key pattern of security.py.  Python's
dollar anchor matches at the end of the string and also just before one
trailing newline, so the pattern accepts both an anchored match and an
anchored match followed by a final newline character. -/
def pyKeyPatternMatch (l : List Char) : Bool :=
  keyCoreMatch l || ((l.getLast? == some '\n') && keyCoreMatch l.dropLast)

/-- Validation outcome of validate_key of security.py: true when the
compiled pattern matches and the key length is at most 64; validate_key
raises ValueError exactly when this is false. -/
def validate_key_ok (k : String) : Bool :=
  pyKeyPatternMatch k.data && decide (k.data.length ≤ 64)

/-- Validation outcome of validate_value of security.py with the default
maximum length: true when the value is at most 4096 characters. -/
def validate_value_ok (v : String) : Bool :=
  decide (v.data.length ≤ 4096)

/-- GroupData of config.py; the three Python dicts are modelled as
insertion-ordered association lists. -/
structure GroupData where
  gname : String
  aliases : List (String × String)
  env_vars : List (String × String)
  functions : List (String × String)
deriving DecidableEq

/-- Python dict assignment d[k] = v: an existing key keeps its position and
gets the new value, a fresh key is appended. -/
def assocSet (m : List (String × String)) (k v : String) : List (String × String) :=
  match m with
  | [] => [(k, v)]
  | (k0, v0) :: rest => if k0 = k then (k0, v) :: rest else (k0, v0) :: assocSet rest k v

/-- Config.get_group: the first group with the requested name, if any. -/
def getGroup (groups : List GroupData) (name : String) : Option GroupData :=
  groups.find? fun g => g.gname == name

/-- Config.add_group: idempotent; a missing group is appended empty. -/
def add_group (groups : List GroupData) (name : String) : List GroupData :=
  match getGroup groups name with
  | some _ => groups
  | none => groups ++ [⟨name, [], [], []⟩]

/-- In-place update of the first group with the given name. -/
def updateFirstGroup (groups : List GroupData) (name : String)
    (f : GroupData → GroupData) : List GroupData :=
  match groups with
  | [] => []
  | g :: rest =>
      if g.gname = name then f g :: rest else g :: updateFirstGroup rest name f

/-- Config.add_item of config.py: add_group runs first and always inserts
the group; GroupData.set_item then raises ValueError (modelled as the false
flag) when the item type is not alias, env or function, leaving the freshly
inserted group behind. -/
def config_add_item (groups : List GroupData) (item_type gname k v : String) :
    List GroupData × Bool :=
  let groups1 := add_group groups gname
  if item_type = "alias" then
    (updateFirstGroup groups1 gname fun g => { g with aliases := assocSet g.aliases k v }, true)
  else if item_type = "env" then
    (updateFirstGroup groups1 gname fun g => { g with env_vars := assocSet g.env_vars k v }, true)
  else if item_type = "function" then
    (updateFirstGroup groups1 gname fun g => { g with functions := assocSet g.functions k v }, true)
  else (groups1, false)

/-- ShtickManager._add_item of shtick.py: validate_key and validate_value
run before any mutation; any exception is caught and turned into a false
result.  The result is (success, groups afterwards, whether the
save-and-regenerate step ran). -/
def manager_add_item (groups : List GroupData) (item_type gname k v : String) :
    Bool × List GroupData × Bool :=
  if validate_key_ok k = false then (false, groups, false)
  else if validate_value_ok v = false then (false, groups, false)
  else
    match config_add_item groups item_type gname k v with
    | (groups1, true) => (true, groups1, true)
    | (groups1, false) => (false, groups1, false)

/-- Config.is_group_active of config.py: plain membership in the loaded
active-group list; there is no special case in this function. -/
def is_group_active (active : List String) (gname : String) : Bool :=
  decide (gname ∈ active)

/-- Config.activate_group: false and untouched state when the group is not
in the configuration; otherwise the name is appended if absent. -/
def config_activate_group (groups : List GroupData) (active : List String)
    (gname : String) : Bool × List String :=
  match getGroup groups gname with
  | none => (false, active)
  | some _ => if gname ∈ active then (true, active) else (true, active ++ [gname])

/-- Config.deactivate_group: removes the first occurrence and reports
whether the group was active; an inactive group is a false result with the
state untouched. -/
def config_deactivate_group (active : List String) (gname : String) :
    Bool × List String :=
  if gname ∈ active then (true, active.erase gname) else (false, active)

/-- ShtickCommands.activate_group of commands.py: an explicit request for
the persistent group exits with an error before touching the manager, and a
failed manager activation also exits with an error. -/
def commands_activate_group (groups : List GroupData) (active : List String)
    (gname : String) : Except String (List String) :=
  if gname = "persistent" then
    Except.error "'persistent' group is always active and cannot be manually activated"
  else
    match config_activate_group groups active gname with
    | (true, active2) => Except.ok active2
    | (false, _) => Except.error "group not found"

/-- ShtickCommands.deactivate_group of commands.py: an explicit request for
the persistent group exits with an error; deactivating an inactive group is
a success (idempotent). -/
def commands_deactivate_group (active : List String) (gname : String) :
    Except String (List String) :=
  if gname = "persistent" then
    Except.error "'persistent' group cannot be deactivated"
  else Except.ok (config_deactivate_group active gname).2

/-- Activity flag attached to listed items in ShtickManager.list_items: the
callers of is_group_active add the persistent special case themselves. -/
def list_item_active_flag (active : List String) (gname : String) : Bool :=
  is_group_active active gname || gname == "persistent"

/-- Claim C2 counterexample: is_group_active itself has no special case for
the persistent group — with an ActiveGroupSet that does not list it, the
function reports persistent as inactive, contradicting the claim that it is
true unconditionally. -/
theorem is_group_active_persistent_not_special :
    is_group_active [] "persistent" = false := by decide

/-- Claim C2 (amended): explicit requests to activate or deactivate the
persistent group are rejected by the command layer, and the item-listing
activity flag treats persistent as active regardless of the ActiveGroupSet
because the callers of is_group_active disjoin the persistent special case;
is_group_active itself is plain membership and reports persistent active
only when it is literally listed. -/
theorem persistent_handling_amended :
    (∀ (groups : List GroupData) (active : List String),
      commands_activate_group groups active "persistent" =
        Except.error "'persistent' group is always active and cannot be manually activated") ∧
    (∀ active : List String,
      commands_deactivate_group active "persistent" =
        Except.error "'persistent' group cannot be deactivated") ∧
    (∀ active : List String, list_item_active_flag active "persistent" = true) ∧
    (∀ (active : List String) (g : String),
      is_group_active active g = decide (g ∈ active)) := by
  refine ⟨fun groups active => ?_, fun active => ?_, fun active => ?_, fun active g => rfl⟩
  · unfold commands_activate_group
    rw [if_pos rfl]
  · unfold commands_deactivate_group
    rw [if_pos rfl]
  · unfold list_item_active_flag
    simp

/-- Claim C4 demonstration (code bug): the key abc followed by a newline
does not match the anchored validation pattern, yet Python's dollar anchor
accepts it, so validate_key passes and the add-item operation creates the
group, stores the item under the newline-carrying key and saves — while the
claimed behaviour is rejection with no mutation.  The claim's own example
1bad is indeed rejected with no mutation. -/
theorem validate_key_trailing_newline_bug :
    keyCoreMatch ("abc\n").data = false ∧
    validate_key_ok "abc\n" = true ∧
    manager_add_item [] "alias" "g" "abc\n" "ls -la" =
      (true, [⟨"g", [("abc\n", "ls -la")], [], []⟩], true) ∧
    validate_key_ok "1bad" = false ∧
    manager_add_item [] "alias" "g" "1bad" "ls -la" = (false, [], false) := by
  refine ⟨by decide, by decide, by decide, by decide, by decide⟩

/-- Claim C5: activating a group that is not in the configuration returns
false and leaves the active set untouched, and deactivating a group that is
not active returns false (not an error) and leaves the state untouched. -/
theorem activate_deactivate_missing_noop (groups : List GroupData)
    (active : List String) (gname : String) :
    (getGroup groups gname = none →
      config_activate_group groups active gname = (false, active)) ∧
    (gname ∉ active →
      config_deactivate_group active gname = (false, active)) := by
  constructor
  · intro h
    unfold config_activate_group
    rw [h]
  · intro h
    unfold config_deactivate_group
    rw [if_neg h]

/-- Witness for claim C5 at concrete inputs. -/
theorem activate_deactivate_missing_noop_witness :
    getGroup [⟨"dev", [], [], []⟩] "work" = none ∧
    config_activate_group [⟨"dev", [], [], []⟩] ["dev"] "work" = (false, ["dev"]) ∧
    ("work" ∉ (["dev"] : List String)) ∧
    config_deactivate_group ["dev"] "work" = (false, ["dev"]) :=
  ⟨by decide,
   (activate_deactivate_missing_noop [⟨"dev", [], [], []⟩] ["dev"] "work").1 (by decide),
   by decide,
   (activate_deactivate_missing_noop [⟨"dev", [], [], []⟩] ["dev"] "work").2 (by decide)⟩

theorem getGroup_append_of_none {groups : List GroupData} {name : String}
    (h : getGroup groups name = none) (l2 : List GroupData) :
    getGroup (groups ++ l2) name = getGroup l2 name := by
  induction groups with
  | nil => rfl
  | cons g rest ih =>
    unfold getGroup at h ⊢
    cases hg : (g.gname == name) with
    | true =>
      rw [List.find?_cons, hg] at h
      simp at h
    | false =>
      rw [List.find?_cons, hg] at h
      rw [List.cons_append, List.find?_cons, hg]
      exact ih h

/-- Claim C10: Config.add_item with an item type outside alias, env,
function raises ValueError (the false flag), but the group has already been
created by add_group, so the failed add still leaves the named group present
in the configuration. -/
theorem add_item_bad_type_group_created (groups : List GroupData)
    (ty gname k v : String)
    (h1 : ty ≠ "alias") (h2 : ty ≠ "env") (h3 : ty ≠ "function") :
    config_add_item groups ty gname k v = (add_group groups gname, false) ∧
    (getGroup (add_group groups gname) gname).isSome = true := by
  constructor
  · unfold config_add_item
    rw [if_neg h1, if_neg h2, if_neg h3]
  · unfold add_group
    cases hg : getGroup groups gname with
    | some g =>
      rw [hg]
      rfl
    | none =>
      rw [getGroup_append_of_none hg]
      unfold getGroup
      rw [List.find?_cons]
      simp

/-- Witness for claim C10 at concrete inputs: a bogus item type fails but
creates the group. -/
theorem add_item_bad_type_group_created_witness :
    config_add_item [] "bogus" "g" "k" "v" = ([⟨"g", [], [], []⟩], false) ∧
    (getGroup [⟨"g", [], [], []⟩] "g").isSome = true := by
  have h := add_item_bad_type_group_created [] "bogus" "g" "k" "v"
    (by decide) (by decide) (by decide)
  refine ⟨?_, ?_⟩
  · rw [h.1]
    decide
  · have h2 := h.2
    rw [show add_group [] "g" = [⟨"g", [], [], []⟩] from by decide] at h2
    exact h2

/-- Control characters in the sense of tomllib: ASCII codes below 32 and
the delete character 127. -/
def isAsciiCtrl (c : Char) : Bool :=
  decide (c.toNat < 32 ∨ c.toNat = 127)

/-- Characters tomllib rejects raw inside a single-line basic string:
control characters other than tab. -/
def illegalBasicChar (c : Char) : Bool :=
  isAsciiCtrl c && decide (c ≠ '\t')

/-- Characters tomllib rejects raw inside a multi-line literal string:
control characters other than tab and newline. -/
def illegalMLLChar (c : Char) : Bool :=
  isAsciiCtrl c && decide (c ≠ '\t') && decide (c ≠ '\n')

/-- Test for three consecutive single quotes, the Python check for the
triple-quote substring in escape_toml_value. -/
def hasTripleQuote : List Char → Bool
  | c :: d :: e :: rest =>
      (c == '\'' && d == '\'' && e == '\'') || hasTripleQuote (d :: e :: rest)
  | _ => false

/-- Escaped-character form of the five sequential replaces of
escape_toml_value (backslash first, then quote, tab, carriage return,
newline). -/
def escTFBChar (c : Char) : List Char :=
  if c = '\\' then ['\\', '\\']
  else if c = '"' then ['\\', '"']
  else if c = '\t' then ['\\', 't']
  else if c = '\r' then ['\\', 'r']
  else if c = '\n' then ['\\', 'n']
  else [c]

/-- The five sequential str.replace calls of escape_toml_value. -/
def basicEscapeTFB (l : List Char) : List Char :=
  replaceChar '\n' ['\\', 'n']
    (replaceChar '\r' ['\\', 'r']
      (replaceChar '\t' ['\\', 't']
        (replaceChar '"' ['\\', '"']
          (replaceChar '\\' ['\\', '\\'] l))))

/-- escape_toml_value from config.py: a value containing a newline or a
carriage return becomes a multi-line literal string unless it contains a
triple quote; otherwise a basic string with escaping when any special
character occurs, or a plain quoted string. -/
def escape_toml_value (l : List Char) : List Char :=
  if '\n' ∈ l ∨ '\r' ∈ l then
    if hasTripleQuote l then '"' :: (basicEscapeTFB l ++ ['"'])
    else '\'' :: '\'' :: '\'' :: '\n' :: (l ++ ['\'', '\'', '\''])
  else if '"' ∈ l ∨ '\\' ∈ l ∨ '\t' ∈ l ∨ '\r' ∈ l ∨ '\n' ∈ l then
    '"' :: (basicEscapeTFB l ++ ['"'])
  else '"' :: (l ++ ['"'])

/-- Illegal-in-basic-string character set of tomli_w: control characters
other than tab, the double quote and the backslash. -/
def tomliwIllegal (c : Char) : Bool :=
  (isAsciiCtrl c && decide (c ≠ '\t')) || decide (c = '"') || decide (c = '\\')

/-- Lowercase hexadecimal digit, as produced by Python's hex(). -/
def hexDigitChar (n : Nat) : Char :=
  if n < 10 then Char.ofNat (48 + n) else Char.ofNat (87 + n)

/-- Four-digit lowercase hexadecimal rendering used in unicode escapes. -/
def hex4 (n : Nat) : List Char :=
  [hexDigitChar (n / 4096 % 16), hexDigitChar (n / 256 % 16),
   hexDigitChar (n / 16 % 16), hexDigitChar (n % 16)]

/-- Escape tomli_w applies to one illegal character: a compact escape for
backspace, newline, form feed, carriage return, quote and backslash, and a
four-digit unicode escape for the other control characters. -/
def tomliwEscapeChar (c : Char) : List Char :=
  if c = Char.ofNat 8 then ['\\', 'b']
  else if c = '\n' then ['\\', 'n']
  else if c = Char.ofNat 12 then ['\\', 'f']
  else if c = '\r' then ['\\', 'r']
  else if c = '"' then ['\\', '"']
  else if c = '\\' then ['\\', '\\']
  else '\\' :: 'u' :: hex4 c.toNat

/-- Per-character action of tomli_w's format_string. -/
def tomliwFormatChar (c : Char) : List Char :=
  if tomliwIllegal c then tomliwEscapeChar c else [c]

/-- format_string of tomli_w with multiline strings disabled, the dump
default used by save_config_securely: a single-line basic string with every
illegal character escaped. -/
def tomliw_format_string (l : List Char) : List Char :=
  '"' :: ((l.map tomliwFormatChar).flatten ++ ['"'])

/-- Document-level normalisation tomllib.loads applies before parsing:
every carriage-return-line-feed pair becomes a line feed. -/
def crlfNorm : List Char → List Char
  | '\r' :: '\n' :: rest => '\n' :: crlfNorm rest
  | c :: rest => c :: crlfNorm rest
  | [] => []

/-- Value of one hexadecimal digit as tomllib reads it. -/
def hexVal (c : Char) : Option Nat :=
  if '0' ≤ c ∧ c ≤ '9' then some (c.toNat - 48)
  else if 'a' ≤ c ∧ c ≤ 'f' then some (c.toNat - 87)
  else if 'A' ≤ c ∧ c ≤ 'F' then some (c.toNat - 55)
  else none

/-- tomllib scanner for the body of a single-line basic string, for the
escape forms the two writers emit; it returns the decoded content and the
input remaining after the closing quote, and errors on raw control
characters, unknown escapes, escaped surrogates and unterminated input. -/
def scanBasicS : List Char → Option (List Char × List Char)
  | [] => none
  | '"' :: rest => some ([], rest)
  | '\\' :: rest =>
      match rest with
      | 'b' :: r => (scanBasicS r).map fun p => (Char.ofNat 8 :: p.1, p.2)
      | 't' :: r => (scanBasicS r).map fun p => ('\t' :: p.1, p.2)
      | 'n' :: r => (scanBasicS r).map fun p => ('\n' :: p.1, p.2)
      | 'f' :: r => (scanBasicS r).map fun p => (Char.ofNat 12 :: p.1, p.2)
      | 'r' :: r => (scanBasicS r).map fun p => ('\r' :: p.1, p.2)
      | '"' :: r => (scanBasicS r).map fun p => ('"' :: p.1, p.2)
      | '\\' :: r => (scanBasicS r).map fun p => ('\\' :: p.1, p.2)
      | 'u' :: h1 :: h2 :: h3 :: h4 :: r =>
          match hexVal h1, hexVal h2, hexVal h3, hexVal h4 with
          | some x1, some x2, some x3, some x4 =>
              let n := ((x1 * 16 + x2) * 16 + x3) * 16 + x4
              if 55296 ≤ n ∧ n ≤ 57343 then none
              else (scanBasicS r).map fun p => (Char.ofNat n :: p.1, p.2)
          | _, _, _, _ => none
      | _ => none
  | c :: rest =>
      if illegalBasicChar c then none
      else (scanBasicS rest).map fun p => (c :: p.1, p.2)

/-- tomllib scanner for the body of a multi-line literal string: content up
to the first triple quote, with up to two immediately following quotes
absorbed into the content; errors on raw control characters other than tab
and newline and on unterminated input. -/
def scanMLLS : List Char → Option (List Char × List Char)
  | '\'' :: '\'' :: '\'' :: rest =>
      match rest with
      | '\'' :: '\'' :: rest2 => some (['\'', '\''], rest2)
      | '\'' :: rest2 => some (['\''], rest2)
      | rest2 => some ([], rest2)
  | c :: rest =>
      if illegalMLLChar c then none
      else (scanMLLS rest).map fun p => (c :: p.1, p.2)
  | [] => none

/-- tomllib reading of one string value in the forms the two writers emit:
a multi-line literal string (a newline right after the opening delimiter is
dropped) or a single-line basic string. -/
def parseValueS (l : List Char) : Option (List Char × List Char) :=
  match l with
  | '\'' :: '\'' :: '\'' :: rest =>
      match rest with
      | '\n' :: rest2 => scanMLLS rest2
      | _ => scanMLLS rest
  | '"' :: rest => scanBasicS rest
  | _ => none

/-- Fallback-writer value round trip: escape_toml_value, the CRLF
normalisation of tomllib.loads, then value parsing consuming the whole
input. -/
def fallbackValueRoundTrip (v : String) : Option String :=
  match parseValueS (crlfNorm (escape_toml_value v.data)) with
  | some (content, []) => some (String.mk content)
  | _ => none

/-- tomli_w value round trip through the same reader. -/
def tomliwValueRoundTrip (v : String) : Option String :=
  match parseValueS (crlfNorm (tomliw_format_string v.data)) with
  | some (content, []) => some (String.mk content)
  | _ => none

/-- Characters for which the fallback writer round-trips: everything except
the carriage return and control characters other than tab and newline. -/
def goodTomlChar (c : Char) : Bool :=
  decide (32 ≤ c.toNat ∧ c.toNat ≠ 127) || decide (c = '\t') || decide (c = '\n')

/-- Claim C3 counterexample: the fallback writer puts carriage returns raw
into a multi-line literal string; a CRLF inside the value is normalised to
LF by the reader (silent corruption) and a bare CR makes the document
unreadable, so values containing carriage returns do not round-trip. -/
theorem fallback_crlf_not_roundtrip :
    fallbackValueRoundTrip "a\r\nb" = some "a\nb" ∧
    fallbackValueRoundTrip "a\rb" = none ∧
    ("a\nb" : String) ≠ "a\r\nb" := by
  refine ⟨by decide, by decide, by decide⟩

theorem replaceChar_append (old : Char) (new : List Char) (l1 l2 : List Char) :
    replaceChar old new (l1 ++ l2) = replaceChar old new l1 ++ replaceChar old new l2 := by
  induction l1 with
  | nil => rfl
  | cons c rest ih => simp [replaceChar, ih]

theorem basicEscapeTFB_append (l1 l2 : List Char) :
    basicEscapeTFB (l1 ++ l2) = basicEscapeTFB l1 ++ basicEscapeTFB l2 := by
  unfold basicEscapeTFB
  rw [replaceChar_append, replaceChar_append, replaceChar_append, replaceChar_append,
    replaceChar_append]

theorem basicEscapeTFB_single (c : Char) : basicEscapeTFB [c] = escTFBChar c := by
  by_cases h1 : c = '\\'
  · subst h1; decide
  · by_cases h2 : c = '"'
    · subst h2; decide
    · by_cases h3 : c = '\t'
      · subst h3; decide
      · by_cases h4 : c = '\r'
        · subst h4; decide
        · by_cases h5 : c = '\n'
          · subst h5; decide
          · simp [basicEscapeTFB, replaceChar, escTFBChar, h1, h2, h3, h4, h5]

theorem basicEscapeTFB_eq (l : List Char) :
    basicEscapeTFB l = (l.map escTFBChar).flatten := by
  induction l with
  | nil => rfl
  | cons c rest ih =>
    rw [show (c :: rest) = [c] ++ rest from rfl, basicEscapeTFB_append, ih,
      basicEscapeTFB_single]
    simp

theorem crlfNorm_step (c : Char) (x : List Char) (h : ¬ c = '\r') :
    crlfNorm (c :: x) = c :: crlfNorm x := by
  cases x with
  | nil => simp [crlfNorm]
  | cons d rest => simp [crlfNorm, h]

theorem crlfNorm_no_cr (x : List Char) (h : ∀ c ∈ x, ¬ c = '\r') :
    crlfNorm x = x := by
  induction x with
  | nil => rfl
  | cons c rest ih =>
    rw [crlfNorm_step c rest (h c (List.mem_cons_self c rest)),
      ih fun c2 hc2 => h c2 (List.mem_cons_of_mem c hc2)]

theorem escTFBChar_no_cr (c : Char) (h : ¬ c = '\r') : '\r' ∉ escTFBChar c := by
  by_cases h1 : c = '\\'
  · subst h1; decide
  · by_cases h2 : c = '"'
    · subst h2; decide
    · by_cases h3 : c = '\t'
      · subst h3; decide
      · by_cases h5 : c = '\n'
        · subst h5; decide
        · rw [show escTFBChar c = [c] from by simp [escTFBChar, h1, h2, h3, h, h5]]
          intro hmem
          rw [List.mem_singleton] at hmem
          exact h hmem.symm

theorem escTFBChar_id (c : Char) (h1 : ¬ c = '\\') (h2 : ¬ c = '"')
    (h3 : ¬ c = '\t') (h4 : ¬ c = '\r') (h5 : ¬ c = '\n') :
    escTFBChar c = [c] := by
  simp [escTFBChar, h1, h2, h3, h4, h5]

theorem goodTomlChar_not_cr (c : Char) (h : goodTomlChar c = true) : ¬ c = '\r' := by
  rintro rfl
  exact absurd h (by decide)

theorem goodTomlChar_not_illegalBasic (c : Char) (hg : goodTomlChar c = true)
    (ht : ¬ c = '\t') (hn : ¬ c = '\n') : illegalBasicChar c = false := by
  unfold goodTomlChar at hg
  unfold illegalBasicChar isAsciiCtrl
  rw [Bool.or_eq_true, Bool.or_eq_true, decide_eq_true_eq, decide_eq_true_eq,
    decide_eq_true_eq] at hg
  rcases hg with (⟨h32, h127⟩ | h) | h
  · have hnot : ¬ (c.toNat < 32 ∨ c.toNat = 127) := by omega
    simp [hnot]
  · exact absurd h ht
  · exact absurd h hn

theorem goodTomlChar_not_illegalMLL (c : Char) (hg : goodTomlChar c = true) :
    illegalMLLChar c = false := by
  by_cases ht : c = '\t'
  · subst ht; decide
  · by_cases hn : c = '\n'
    · subst hn; decide
    · unfold illegalMLLChar
      rw [show (isAsciiCtrl c && decide (c ≠ '\t')) = illegalBasicChar c from rfl]
      rw [goodTomlChar_not_illegalBasic c hg ht hn]
      rfl

theorem hasTripleQuote_cons_false {c : Char} {rest : List Char}
    (h : hasTripleQuote (c :: rest) = false) : hasTripleQuote rest = false := by
  rcases rest with _ | ⟨d, _ | ⟨e, r⟩⟩
  · rfl
  · rfl
  · unfold hasTripleQuote at h
    rw [Bool.or_eq_false_iff] at h
    exact h.2

theorem scanBasicS_close (rest : List Char) : scanBasicS ('"' :: rest) = some ([], rest) := by
  simp [scanBasicS]

theorem scanBasicS_other (c : Char) (x : List Char) (h1 : ¬ c = '"')
    (h2 : ¬ c = '\\') (h3 : illegalBasicChar c = false) :
    scanBasicS (c :: x) = (scanBasicS x).map fun p => (c :: p.1, p.2) := by
  simp [scanBasicS, h1, h2, h3]

theorem scanBasicS_esc_t (x : List Char) :
    scanBasicS ('\\' :: 't' :: x) = (scanBasicS x).map fun p => ('\t' :: p.1, p.2) := by
  simp [scanBasicS]

theorem scanBasicS_esc_n (x : List Char) :
    scanBasicS ('\\' :: 'n' :: x) = (scanBasicS x).map fun p => ('\n' :: p.1, p.2) := by
  simp [scanBasicS]

theorem scanBasicS_esc_r (x : List Char) :
    scanBasicS ('\\' :: 'r' :: x) = (scanBasicS x).map fun p => ('\r' :: p.1, p.2) := by
  simp [scanBasicS]

theorem scanBasicS_esc_b (x : List Char) :
    scanBasicS ('\\' :: 'b' :: x) = (scanBasicS x).map fun p => (Char.ofNat 8 :: p.1, p.2) := by
  simp [scanBasicS]

theorem scanBasicS_esc_f (x : List Char) :
    scanBasicS ('\\' :: 'f' :: x) = (scanBasicS x).map fun p => (Char.ofNat 12 :: p.1, p.2) := by
  simp [scanBasicS]

theorem scanBasicS_esc_dq (x : List Char) :
    scanBasicS ('\\' :: '"' :: x) = (scanBasicS x).map fun p => ('"' :: p.1, p.2) := by
  simp [scanBasicS]

theorem scanBasicS_esc_bs (x : List Char) :
    scanBasicS ('\\' :: '\\' :: x) = (scanBasicS x).map fun p => ('\\' :: p.1, p.2) := by
  simp [scanBasicS]

theorem scanBasicS_escTFB (l : List Char) (hg : ∀ c ∈ l, goodTomlChar c = true)
    (tail : List Char) :
    scanBasicS ((l.map escTFBChar).flatten ++ '"' :: tail) = some (l, tail) := by
  induction l with
  | nil => simpa using scanBasicS_close tail
  | cons c rest ih =>
    have hgc := hg c (List.mem_cons_self c rest)
    have hgr : ∀ c2 ∈ rest, goodTomlChar c2 = true :=
      fun c2 h2 => hg c2 (List.mem_cons_of_mem c h2)
    rw [List.map_cons, List.flatten_cons, List.append_assoc]
    by_cases h1 : c = '\\'
    · subst h1
      rw [show escTFBChar '\\' = ['\\', '\\'] from by decide, List.cons_append,
        List.cons_append, List.nil_append, scanBasicS_esc_bs, ih hgr]
      rfl
    · by_cases h2 : c = '"'
      · subst h2
        rw [show escTFBChar '"' = ['\\', '"'] from by decide, List.cons_append,
          List.cons_append, List.nil_append, scanBasicS_esc_dq, ih hgr]
        rfl
      · by_cases h3 : c = '\t'
        · subst h3
          rw [show escTFBChar '\t' = ['\\', 't'] from by decide, List.cons_append,
            List.cons_append, List.nil_append, scanBasicS_esc_t, ih hgr]
          rfl
        · by_cases h4 : c = '\r'
          · subst h4
            rw [show escTFBChar '\r' = ['\\', 'r'] from by decide, List.cons_append,
              List.cons_append, List.nil_append, scanBasicS_esc_r, ih hgr]
            rfl
          · by_cases h5 : c = '\n'
            · subst h5
              rw [show escTFBChar '\n' = ['\\', 'n'] from by decide, List.cons_append,
                List.cons_append, List.nil_append, scanBasicS_esc_n, ih hgr]
              rfl
            · rw [escTFBChar_id c h1 h2 h3 h4 h5, List.cons_append, List.nil_append,
                scanBasicS_other c _ h2 h1 (goodTomlChar_not_illegalBasic c hgc h3 h5),
                ih hgr]
              rfl

theorem scanMLLS_step (c : Char) (x : List Char)
    (hcx : ¬ (c = '\'' ∧ x.take 2 = ['\'', '\''])) (hc : illegalMLLChar c = false) :
    scanMLLS (c :: x) = (scanMLLS x).map fun p => (c :: p.1, p.2) := by
  by_cases h : c = '\''
  · subst h
    rcases x with _ | ⟨d, _ | ⟨e, x3⟩⟩
    · simp [scanMLLS]
    · by_cases hd : d = '\''
      · subst hd; simp [scanMLLS]
      · simp [scanMLLS, hd]
    · by_cases hd : d = '\''
      · subst hd
        by_cases he : e = '\''
        · exact absurd ⟨rfl, by rw [he]; rfl⟩ hcx
        · simp [scanMLLS, he, hc]
      · simp [scanMLLS, hd, hc]
  · rcases x with _ | ⟨d, _ | ⟨e, x3⟩⟩ <;> simp [scanMLLS, h, hc]

theorem scanMLLS_append (l : List Char) (tail : List Char)
    (h1 : hasTripleQuote l = false)
    (h2 : ∀ c ∈ l, illegalMLLChar c = false)
    (h3 : tail.head? ≠ some '\'') :
    scanMLLS (l ++ '\'' :: '\'' :: '\'' :: tail) = some (l, tail) := by
  induction l with
  | nil =>
    rcases tail with _ | ⟨t, ts⟩
    · simp [scanMLLS]
    · have ht : ¬ t = '\'' := by
        intro e
        exact h3 (by rw [e]; rfl)
      simp [scanMLLS, ht]
  | cons c rest ih =>
    have ihr := ih (hasTripleQuote_cons_false h1)
      (fun c2 hc2 => h2 c2 (List.mem_cons_of_mem c hc2))
    by_cases hc : c = '\''
    · subst hc
      rcases rest with _ | ⟨d, rest2⟩
      · rcases tail with _ | ⟨t, ts⟩
        · simp [scanMLLS]
        · have ht : ¬ t = '\'' := by
            intro e
            exact h3 (by rw [e]; rfl)
          simp [scanMLLS, ht]
      · by_cases hd : d = '\''
        · subst hd
          rcases rest2 with _ | ⟨e, rest3⟩
          · simp [scanMLLS]
          · by_cases he : e = '\''
            · subst he
              simp [hasTripleQuote] at h1
            · rw [List.cons_append,
                scanMLLS_step '\'' _ (by
                  rintro ⟨_, htake⟩
                  rw [List.cons_append, List.cons_append] at htake
                  simp [List.take] at htake
                  exact he htake) (by decide),
                ihr]
              rfl
        · rw [List.cons_append,
            scanMLLS_step '\'' _ (by
              rintro ⟨_, htake⟩
              rw [List.cons_append] at htake
              rcases rest2 with _ | ⟨e2, r3⟩
              · simp [List.take] at htake
                exact hd htake
              · simp [List.take] at htake
                exact hd htake.1) (by decide),
            ihr]
          rfl
    · rw [List.cons_append,
        scanMLLS_step c _ (fun hh => hc hh.1) (h2 c (List.mem_cons_self c rest)),
        ihr]
      rfl

theorem parseValueS_mll (x : List Char) :
    parseValueS ('\'' :: '\'' :: '\'' :: '\n' :: x) = scanMLLS x := by
  simp [parseValueS]

theorem parseValueS_basic (x : List Char) :
    parseValueS ('"' :: x) = scanBasicS x := by
  simp [parseValueS]

theorem hexVal_hexDigitChar (k : Nat) (h : k < 16) : hexVal (hexDigitChar k) = some k := by
  have hall : ∀ k : Fin 16, hexVal (hexDigitChar k.val) = some k.val := by decide
  exact hall ⟨k, h⟩

theorem scanBasicS_esc_u (a b c2 d : Char) (x : List Char) (x1 x2 x3 x4 : Nat)
    (e1 : hexVal a = some x1) (e2 : hexVal b = some x2) (e3 : hexVal c2 = some x3)
    (e4 : hexVal d = some x4)
    (hn : ¬ (55296 ≤ ((x1 * 16 + x2) * 16 + x3) * 16 + x4 ∧
      ((x1 * 16 + x2) * 16 + x3) * 16 + x4 ≤ 57343)) :
    scanBasicS ('\\' :: 'u' :: a :: b :: c2 :: d :: x) =
      (scanBasicS x).map fun p =>
        (Char.ofNat (((x1 * 16 + x2) * 16 + x3) * 16 + x4) :: p.1, p.2) := by
  simp [scanBasicS, e1, e2, e3, e4, hn]

theorem tomliwIllegal_ctrl (c : Char) (hI : tomliwIllegal c = true)
    (hq : ¬ c = '"') (hb : ¬ c = '\\') : c.toNat < 32 ∨ c.toNat = 127 := by
  unfold tomliwIllegal isAsciiCtrl at hI
  simp only [Bool.or_eq_true, Bool.and_eq_true, decide_eq_true_eq] at hI
  rcases hI with (⟨h1, _⟩ | h) | h
  · exact h1
  · exact absurd h hq
  · exact absurd h hb

theorem tomliwIllegal_false_not_illegalBasic (c : Char)
    (hI : tomliwIllegal c = false) : illegalBasicChar c = false := by
  unfold tomliwIllegal at hI
  rw [Bool.or_eq_false_iff, Bool.or_eq_false_iff] at hI
  exact hI.1.1

theorem scanBasicS_tomliw (l : List Char) (tail : List Char) :
    scanBasicS ((l.map tomliwFormatChar).flatten ++ '"' :: tail) = some (l, tail) := by
  induction l with
  | nil => simpa using scanBasicS_close tail
  | cons c rest ih =>
    rw [List.map_cons, List.flatten_cons, List.append_assoc]
    cases hI : tomliwIllegal c with
    | false =>
      rw [show tomliwFormatChar c = [c] from by simp [tomliwFormatChar, hI]]
      have hq : ¬ c = '"' := by rintro rfl; exact absurd hI (by decide)
      have hb : ¬ c = '\\' := by rintro rfl; exact absurd hI (by decide)
      rw [List.cons_append, List.nil_append,
        scanBasicS_other c _ hq hb (tomliwIllegal_false_not_illegalBasic c hI), ih]
      rfl
    | true =>
      rw [show tomliwFormatChar c = tomliwEscapeChar c from by simp [tomliwFormatChar, hI]]
      by_cases h8 : c = Char.ofNat 8
      · subst h8
        rw [show tomliwEscapeChar (Char.ofNat 8) = ['\\', 'b'] from by decide,
          List.cons_append, List.cons_append, List.nil_append, scanBasicS_esc_b, ih]
        rfl
      · by_cases hn : c = '\n'
        · subst hn
          rw [show tomliwEscapeChar '\n' = ['\\', 'n'] from by decide,
            List.cons_append, List.cons_append, List.nil_append, scanBasicS_esc_n, ih]
          rfl
        · by_cases hf : c = Char.ofNat 12
          · subst hf
            rw [show tomliwEscapeChar (Char.ofNat 12) = ['\\', 'f'] from by decide,
              List.cons_append, List.cons_append, List.nil_append, scanBasicS_esc_f, ih]
            rfl
          · by_cases hr : c = '\r'
            · subst hr
              rw [show tomliwEscapeChar '\r' = ['\\', 'r'] from by decide,
                List.cons_append, List.cons_append, List.nil_append, scanBasicS_esc_r, ih]
              rfl
            · by_cases hq : c = '"'
              · subst hq
                rw [show tomliwEscapeChar '"' = ['\\', '"'] from by decide,
                  List.cons_append, List.cons_append, List.nil_append, scanBasicS_esc_dq, ih]
                rfl
              · by_cases hb : c = '\\'
                · subst hb
                  rw [show tomliwEscapeChar '\\' = ['\\', '\\'] from by decide,
                    List.cons_append, List.cons_append, List.nil_append, scanBasicS_esc_bs, ih]
                  rfl
                · have hctrl : c.toNat < 32 ∨ c.toNat = 127 := tomliwIllegal_ctrl c hI hq hb
                  have hlow : c.toNat < 128 := by omega
                  rw [show tomliwEscapeChar c = '\\' :: 'u' :: hex4 c.toNat from by
                    simp [tomliwEscapeChar, h8, hn, hf, hr, hq, hb]]
                  unfold hex4
                  rw [show ('\\' :: 'u' :: [hexDigitChar (c.toNat / 4096 % 16),
                      hexDigitChar (c.toNat / 256 % 16), hexDigitChar (c.toNat / 16 % 16),
                      hexDigitChar (c.toNat % 16)]) ++
                        ((rest.map tomliwFormatChar).flatten ++ '"' :: tail)
                      = '\\' :: 'u' :: hexDigitChar (c.toNat / 4096 % 16) ::
                        hexDigitChar (c.toNat / 256 % 16) :: hexDigitChar (c.toNat / 16 % 16) ::
                        hexDigitChar (c.toNat % 16) ::
                        ((rest.map tomliwFormatChar).flatten ++ '"' :: tail) from rfl]
                  rw [scanBasicS_esc_u _ _ _ _ _ _ _ _ _
                    (hexVal_hexDigitChar _ (Nat.mod_lt _ (by decide)))
                    (hexVal_hexDigitChar _ (Nat.mod_lt _ (by decide)))
                    (hexVal_hexDigitChar _ (Nat.mod_lt _ (by decide)))
                    (hexVal_hexDigitChar _ (Nat.mod_lt _ (by decide)))
                    (by omega)]
                  rw [show ((c.toNat / 4096 % 16 * 16 + c.toNat / 256 % 16) * 16 +
                      c.toNat / 16 % 16) * 16 + c.toNat % 16 = c.toNat from by omega]
                  rw [Char.ofNat_toNat, ih]
                  rfl

theorem hexDigitChar_mod16_ne_cr (n : Nat) : ¬ '\r' = hexDigitChar (n % 16) := by
  have hall : ∀ k : Fin 16, ¬ '\r' = hexDigitChar k.val := by decide
  exact hall ⟨n % 16, Nat.mod_lt _ (by decide)⟩

theorem tomliwFormatChar_no_cr (c : Char) : '\r' ∉ tomliwFormatChar c := by
  unfold tomliwFormatChar
  cases hI : tomliwIllegal c with
  | false =>
    rw [if_neg (by decide : ¬ false = true)]
    intro hmem
    rw [List.mem_singleton] at hmem
    subst hmem
    exact absurd hI (by decide)
  | true =>
    rw [if_pos rfl]
    by_cases h8 : c = Char.ofNat 8
    · subst h8; decide
    · by_cases hn : c = '\n'
      · subst hn; decide
      · by_cases hf : c = Char.ofNat 12
        · subst hf; decide
        · by_cases hr : c = '\r'
          · subst hr; decide
          · by_cases hq : c = '"'
            · subst hq; decide
            · by_cases hb : c = '\\'
              · subst hb; decide
              · rw [show tomliwEscapeChar c = '\\' :: 'u' :: hex4 c.toNat from by
                  simp [tomliwEscapeChar, h8, hn, hf, hr, hq, hb]]
                unfold hex4
                intro hmem
                rw [List.mem_cons, List.mem_cons, List.mem_cons, List.mem_cons,
                  List.mem_cons, List.mem_singleton] at hmem
                rcases hmem with h | h | h | h | h | h
                · exact absurd h (by decide)
                · exact absurd h (by decide)
                · exact hexDigitChar_mod16_ne_cr _ h
                · exact hexDigitChar_mod16_ne_cr _ h
                · exact hexDigitChar_mod16_ne_cr _ h
                · exact hexDigitChar_mod16_ne_cr _ h

theorem escTFB_flatten_id (l : List Char) (hq : '"' ∉ l) (hb : '\\' ∉ l)
    (ht : '\t' ∉ l) (hr : '\r' ∉ l) (hn : '\n' ∉ l) :
    (l.map escTFBChar).flatten = l := by
  induction l with
  | nil => rfl
  | cons c rest ih =>
    rw [List.map_cons, List.flatten_cons,
      escTFBChar_id c
        (by rintro rfl; exact hb (List.mem_cons_self _ _))
        (by rintro rfl; exact hq (List.mem_cons_self _ _))
        (by rintro rfl; exact ht (List.mem_cons_self _ _))
        (by rintro rfl; exact hr (List.mem_cons_self _ _))
        (by rintro rfl; exact hn (List.mem_cons_self _ _)),
      ih (fun h => hq (List.mem_cons_of_mem _ h)) (fun h => hb (List.mem_cons_of_mem _ h))
        (fun h => ht (List.mem_cons_of_mem _ h)) (fun h => hr (List.mem_cons_of_mem _ h))
        (fun h => hn (List.mem_cons_of_mem _ h))]
    rfl

theorem parse_fallback_basic (l : List Char) (hg : ∀ c ∈ l, goodTomlChar c = true) :
    parseValueS (crlfNorm ('"' :: (basicEscapeTFB l ++ ['"']))) = some (l, []) := by
  rw [basicEscapeTFB_eq]
  have hnocr : ∀ c ∈ ('"' :: ((l.map escTFBChar).flatten ++ ['"'])), ¬ c = '\r' := by
    intro c hc
    rw [List.mem_cons, List.mem_append] at hc
    rcases hc with rfl | hc | hc
    · decide
    · rw [List.mem_flatten] at hc
      obtain ⟨lc, hlc, hcin⟩ := hc
      rw [List.mem_map] at hlc
      obtain ⟨c0, hc0, rfl⟩ := hlc
      rintro rfl
      exact escTFBChar_no_cr c0 (goodTomlChar_not_cr c0 (hg c0 hc0)) hcin
    · rw [List.mem_singleton] at hc
      subst hc
      decide
  rw [crlfNorm_no_cr _ hnocr,
    show ((l.map escTFBChar).flatten ++ ['"']) =
      ((l.map escTFBChar).flatten ++ '"' :: []) from rfl,
    parseValueS_basic, scanBasicS_escTFB l hg []]

/-- Claim C3 (amended): the save/load round trip reproduces item values
byte-for-byte for the tomli_w writer on all values, and for the fallback
writer on values whose characters are printable (or tab or newline) — i.e.
contain no carriage return and no other control character.  A value with a
carriage return put into the fallback writer's multi-line literal branch is
either silently normalised (CRLF becomes LF) or makes the file unreadable,
as the counterexample shows. -/
theorem toml_value_roundTrip_amended (v : String) :
    (v.data.all goodTomlChar = true → fallbackValueRoundTrip v = some v) ∧
    tomliwValueRoundTrip v = some v := by
  constructor
  · intro hgood
    have hg : ∀ c ∈ v.data, goodTomlChar c = true := by
      rw [List.all_eq_true] at hgood
      exact fun c hc => hgood c hc
    unfold fallbackValueRoundTrip escape_toml_value
    by_cases hnl : '\n' ∈ v.data ∨ '\r' ∈ v.data
    · rw [if_pos hnl]
      by_cases htr : hasTripleQuote v.data = true
      · rw [if_pos htr, parse_fallback_basic v.data hg]
      · rw [if_neg htr]
        have htr' : hasTripleQuote v.data = false := by
          cases h : hasTripleQuote v.data
          · rfl
          · exact absurd h htr
        have hnocr : ∀ c ∈ ('\'' :: '\'' :: '\'' :: '\n' ::
            (v.data ++ ['\'', '\'', '\''])), ¬ c = '\r' := by
          intro c hc
          rw [List.mem_cons, List.mem_cons, List.mem_cons, List.mem_cons,
            List.mem_append] at hc
          rcases hc with rfl | rfl | rfl | rfl | hc | hc
          · decide
          · decide
          · decide
          · decide
          · exact goodTomlChar_not_cr c (hg c hc)
          · rw [List.mem_cons, List.mem_cons, List.mem_singleton] at hc
            rcases hc with rfl | rfl | rfl
            · decide
            · decide
            · decide
        rw [crlfNorm_no_cr _ hnocr,
          show (v.data ++ ['\'', '\'', '\'']) =
            v.data ++ '\'' :: '\'' :: '\'' :: [] from rfl,
          parseValueS_mll,
          scanMLLS_append v.data [] htr'
            (fun c hc => goodTomlChar_not_illegalMLL c (hg c hc)) (by simp)]
    · rw [if_neg hnl]
      by_cases hesc : '"' ∈ v.data ∨ '\\' ∈ v.data ∨ '\t' ∈ v.data ∨
          '\r' ∈ v.data ∨ '\n' ∈ v.data
      · rw [if_pos hesc, parse_fallback_basic v.data hg]
      · rw [if_neg hesc]
        push_neg at hesc
        obtain ⟨hq, hb, ht, hr, hn⟩ := hesc
        rw [show ('"' :: (v.data ++ ['"'])) =
            ('"' :: (basicEscapeTFB v.data ++ ['"'])) from by
          rw [basicEscapeTFB_eq, escTFB_flatten_id v.data hq hb ht hr hn],
          parse_fallback_basic v.data hg]
  · unfold tomliwValueRoundTrip tomliw_format_string
    have hnocr : ∀ c ∈ ('"' :: ((v.data.map tomliwFormatChar).flatten ++ ['"'])),
        ¬ c = '\r' := by
      intro c hc
      rw [List.mem_cons, List.mem_append] at hc
      rcases hc with rfl | hc | hc
      · decide
      · rw [List.mem_flatten] at hc
        obtain ⟨lc, hlc, hcin⟩ := hc
        rw [List.mem_map] at hlc
        obtain ⟨c0, _, rfl⟩ := hlc
        rintro rfl
        exact tomliwFormatChar_no_cr c0 hcin
      · rw [List.mem_singleton] at hc
        subst hc
        decide
    rw [crlfNorm_no_cr _ hnocr,
      show ((v.data.map tomliwFormatChar).flatten ++ ['"']) =
        ((v.data.map tomliwFormatChar).flatten ++ '"' :: []) from rfl,
      parseValueS_basic, scanBasicS_tomliw v.data []]

/-- Witness for the amended claim C3 at a concrete value containing a
quote, a backslash, a tab and a newline. -/
theorem toml_value_roundTrip_amended_witness :
    ("say \"hi\"\t\\now" : String).data.all goodTomlChar = true ∧
    fallbackValueRoundTrip "say \"hi\"\t\\now" = some "say \"hi\"\t\\now" :=
  ⟨by decide, (toml_value_roundTrip_amended "say \"hi\"\t\\now").1 (by decide)⟩

/-- Characters of a bare TOML key, as both tomllib and tomli_w treat them:
letters, digits, underscore and hyphen. -/
def bareKeyChar (c : Char) : Bool :=
  decide (('a' ≤ c ∧ c ≤ 'z') ∨ ('A' ≤ c ∧ c ≤ 'Z') ∨ ('0' ≤ c ∧ c ≤ '9') ∨
    c = '_' ∨ c = '-')

/-- A nonempty string of bare key characters. -/
def bareName (s : String) : Bool :=
  !s.data.isEmpty && s.data.all bareKeyChar

/-- Stable insertion of a key-value pair into a key-sorted list. -/
def insertSorted (x : String × String) : List (String × String) → List (String × String)
  | [] => [x]
  | y :: rest => if x.1 ≤ y.1 then x :: y :: rest else y :: insertSorted x rest

/-- Model of Python sorted() over the dict keys, as the fallback writer
iterates them: the association list reordered by ascending key. -/
def sortKVs : List (String × String) → List (String × String)
  | [] => []
  | x :: rest => insertSorted x (sortKVs rest)

/-- Key-value line of the fallback writer of save_config_securely. -/
def kvLineFB (kv : String × String) : List Char :=
  kv.1.data ++ ' ' :: '=' :: ' ' :: (escape_toml_value kv.2.data ++ ['\n'])

/-- Section of the fallback writer: dotted header then the sorted items. -/
def sectionFB (gname sname : String) (items : List (String × String)) : List Char :=
  '[' :: gname.data ++ '.' :: sname.data ++ [']', '\n'] ++
    ((sortKVs items).map kvLineFB).flatten

/-- One group of fallback-writer output: the group header, then the three
sections each followed by a blank line, exactly as save_config_securely
writes them. -/
def groupBlockFB (g : GroupData) : List Char :=
  '[' :: g.gname.data ++ [']', '\n'] ++
    sectionFB g.gname "aliases" g.aliases ++ ['\n'] ++
    sectionFB g.gname "env_vars" g.env_vars ++ ['\n'] ++
    sectionFB g.gname "functions" g.functions ++ ['\n']

/-- The whole fallback-writer document. -/
def save_config_fallback (groups : List GroupData) : List Char :=
  (groups.map groupBlockFB).flatten

/-- format_key_part of tomli_w: a nonempty all-bare key is written as is,
anything else as a quoted basic string. -/
def format_key_part (k : String) : List Char :=
  if k.data ≠ [] ∧ k.data.all bareKeyChar then k.data else tomliw_format_string k.data

/-- Key-value line of tomli_w. -/
def kvLineTW (kv : String × String) : List Char :=
  format_key_part kv.1 ++ ' ' :: '=' :: ' ' :: (tomliw_format_string kv.2.data ++ ['\n'])

/-- Section chunk of tomli_w for one sub-table of a group: the dotted header
then the items in insertion order. -/
def sectionTW (gname sname : String) (items : List (String × String)) : List Char :=
  '[' :: format_key_part gname ++ '.' :: sname.data ++ [']', '\n'] ++
    (items.map kvLineTW).flatten

/-- The sub-tables tomli_w renders, one triple (group name, section name,
items) per section, three per group in source order. -/
def secTriples (groups : List GroupData) :
    List (String × String × List (String × String)) :=
  (groups.map fun g =>
    [(g.gname, "aliases", g.aliases), (g.gname, "env_vars", g.env_vars),
     (g.gname, "functions", g.functions)]).flatten

/-- The section chunks tomli_w emits for the dict save_config_securely
builds: three sub-tables per group, no separate group header because each
group holds only sub-tables. -/
def sectionsTW (groups : List GroupData) : List (List Char) :=
  (secTriples groups).map fun t => sectionTW t.1 t.2.1 t.2.2

/-- tomli_w separates consecutive table chunks with one blank line. -/
def joinBlankLines : List (List Char) → List Char
  | [] => []
  | [s] => s
  | s :: rest => s ++ '\n' :: joinBlankLines rest

/-- The whole tomli_w document for the config dict. -/
def save_config_tomliw (groups : List GroupData) : List Char :=
  joinBlankLines (sectionsTW groups)

/-- The dict save_config_securely passes to tomli_w.dump: every group keyed
by name with its three sections, present even when empty. -/
def tomliwDumpData (groups : List GroupData) :
    List (String × List (String × List (String × String))) :=
  groups.map fun g =>
    (g.gname, [("aliases", g.aliases), ("env_vars", g.env_vars),
      ("functions", g.functions)])

/-- Parsed TOML tables: declared header paths with their key-value lists. -/
abbrev TomlTables := List (List String × List (String × String))

/-- Header reader after the opening bracket: dotted bare parts up to the
closing bracket. -/
def parseHeaderAux : List Char → List Char → List String →
    Option (List String × List Char)
  | [], _, _ => none
  | c :: rest, cur, parts =>
      if bareKeyChar c then parseHeaderAux rest (cur ++ [c]) parts
      else if c = '.' then
        if cur = [] then none else parseHeaderAux rest [] (parts ++ [String.mk cur])
      else if c = ']' then
        if cur = [] then none else some (parts ++ [String.mk cur], rest)
      else none

/-- Whether a table path has already been declared (tomllib rejects a
duplicate table declaration). -/
def hasPath (tbls : TomlTables) (p : List String) : Bool :=
  tbls.any fun e => e.1 == p

/-- Adding one key-value pair to the current table; a missing current table
or a duplicate key is an error, as in tomllib. -/
def addKV : TomlTables → List String → String → String → Option TomlTables
  | [], _, _, _ => none
  | (p, kvs) :: rest, cur, k, v =>
      if p = cur then
        if kvs.any fun e => e.1 == k then none
        else some ((p, kvs ++ [(k, v)]) :: rest)
      else (addKV rest cur k v).map fun t => (p, kvs) :: t

/-- Result of consuming one logical line of the document. -/
inductive StepRes where
  | cont (tbls : TomlTables) (cur : List String) (rest : List Char)
  | done (tbls : TomlTables)
  | fail

/-- Consuming a header line after its opening bracket. -/
def headerStep (tbls : TomlTables) (rest : List Char) : StepRes :=
  match parseHeaderAux rest [] [] with
  | some (path, rest2) =>
      if hasPath tbls path then StepRes.fail
      else
        match rest2 with
        | '\n' :: rest3 => StepRes.cont (tbls ++ [(path, [])]) path rest3
        | [] => StepRes.done (tbls ++ [(path, [])])
        | _ => StepRes.fail
  | none => StepRes.fail

/-- Consuming one key-value line starting with the bare character c. -/
def kvStep (tbls : TomlTables) (cur : List String) (c : Char) (rest : List Char) :
    StepRes :=
  match (c :: rest).dropWhile bareKeyChar with
  | ' ' :: '=' :: ' ' :: r2 =>
      match parseValueS r2 with
      | some (content, r3) =>
          match addKV tbls cur (String.mk ((c :: rest).takeWhile bareKeyChar))
              (String.mk content) with
          | some tbls2 =>
              match r3 with
              | '\n' :: r4 => StepRes.cont tbls2 cur r4
              | [] => StepRes.done tbls2
              | _ => StepRes.fail
          | none => StepRes.fail
      | none => StepRes.fail
  | _ => StepRes.fail

/-- Line loop of the tomllib table reader for the documents the two writers
emit: blank lines, bracketed header lines and key-value lines.  The fuel
ticks once per logical line; the top-level wrapper supplies more fuel than
the document has lines. -/
def parseDocAux : Nat → List Char → TomlTables → List String → Option TomlTables
  | _, [], tbls, _ => some tbls
  | 0, _ :: _, _, _ => none
  | fuel + 1, c :: rest, tbls, cur =>
      if c = '\n' then parseDocAux fuel rest tbls cur
      else if c = '[' then
        match headerStep tbls rest with
        | StepRes.cont tbls2 cur2 rest2 => parseDocAux fuel rest2 tbls2 cur2
        | StepRes.done tbls2 => some tbls2
        | StepRes.fail => none
      else if bareKeyChar c then
        match kvStep tbls cur c rest with
        | StepRes.cont tbls2 cur2 rest2 => parseDocAux fuel rest2 tbls2 cur2
        | StepRes.done tbls2 => some tbls2
        | StepRes.fail => none
      else none

/-- tomllib.loads on a writer document: CRLF normalisation then the line
loop, with fuel covering every line. -/
def parse_toml_doc (src : List Char) : Option TomlTables :=
  parseDocAux (src.length + 1) (crlfNorm src) [] []

/-- First occurrences, in order — Python dict key order for the top-level
tables tomllib creates. -/
def dedupAux : List String → List String → List String
  | [], _ => []
  | x :: rest, seen =>
      if x ∈ seen then dedupAux rest seen else x :: dedupAux rest (seen ++ [x])

/-- Top-level table names in creation order. -/
def topNames (tbls : TomlTables) : List String :=
  dedupAux (tbls.filterMap fun e => e.1.head?) []

/-- The key-value list of one section of one group, empty when the section
was never declared — mirroring the section extraction of Config.load. -/
def sectionKVs (tbls : TomlTables) (g s : String) : List (String × String) :=
  match tbls.find? fun e => e.1 == [g, s] with
  | some e => e.2
  | none => []

/-- Config.load on the parsed tables: one GroupData per top-level table,
taking the three known sections and ignoring anything else, groups kept
even when empty. -/
def config_load_groups (tbls : TomlTables) : List GroupData :=
  (topNames tbls).map fun n =>
    ⟨n, sectionKVs tbls n "aliases", sectionKVs tbls n "env_vars",
      sectionKVs tbls n "functions"⟩

/-- Config.save with the fallback writer followed by Config.load. -/
def fallback_config_roundTrip (groups : List GroupData) : Option (List GroupData) :=
  (parse_toml_doc (save_config_fallback groups)).map config_load_groups

/-- Config.save through tomli_w followed by Config.load. -/
def tomliw_config_roundTrip (groups : List GroupData) : Option (List GroupData) :=
  (parse_toml_doc (save_config_tomliw groups)).map config_load_groups

/-- Claim C6 counterexample: an explicitly created empty group whose name
contains a dot is written bare into the fallback writer's headers, so the
reload produces a group named by the first dotted component instead — the
empty group named a.b does not survive the round trip. -/
theorem empty_group_dotted_name_lost :
    fallback_config_roundTrip [⟨"a.b", [], [], []⟩] = some [⟨"a", [], [], []⟩] ∧
    getGroup [⟨"a", [], [], []⟩] "a.b" = none := by
  refine ⟨by decide, by decide⟩

theorem parse_escape_stream (l : List Char) (hg : ∀ c ∈ l, goodTomlChar c = true)
    (rest : List Char) :
    parseValueS (escape_toml_value l ++ '\n' :: rest) = some (l, '\n' :: rest) := by
  unfold escape_toml_value
  by_cases hnl : '\n' ∈ l ∨ '\r' ∈ l
  · rw [if_pos hnl]
    by_cases htr : hasTripleQuote l = true
    · rw [if_pos htr, basicEscapeTFB_eq]
      rw [show ('"' :: ((l.map escTFBChar).flatten ++ ['"'])) ++ '\n' :: rest =
        '"' :: ((l.map escTFBChar).flatten ++ '"' :: ('\n' :: rest)) from by simp]
      rw [parseValueS_basic, scanBasicS_escTFB l hg ('\n' :: rest)]
    · rw [if_neg htr]
      have htr2 : hasTripleQuote l = false := by
        cases h : hasTripleQuote l
        · rfl
        · exact absurd h htr
      rw [show ('\'' :: '\'' :: '\'' :: '\n' :: (l ++ ['\'', '\'', '\''])) ++ '\n' :: rest =
        '\'' :: '\'' :: '\'' :: '\n' :: (l ++ '\'' :: '\'' :: '\'' :: ('\n' :: rest)) from by
          simp]
      rw [parseValueS_mll,
        scanMLLS_append l ('\n' :: rest) htr2
          (fun c hc => goodTomlChar_not_illegalMLL c (hg c hc)) (by simp)]
  · rw [if_neg hnl]
    by_cases hesc : '"' ∈ l ∨ '\\' ∈ l ∨ '\t' ∈ l ∨ '\r' ∈ l ∨ '\n' ∈ l
    · rw [if_pos hesc, basicEscapeTFB_eq]
      rw [show ('"' :: ((l.map escTFBChar).flatten ++ ['"'])) ++ '\n' :: rest =
        '"' :: ((l.map escTFBChar).flatten ++ '"' :: ('\n' :: rest)) from by simp]
      rw [parseValueS_basic, scanBasicS_escTFB l hg ('\n' :: rest)]
    · rw [if_neg hesc]
      push_neg at hesc
      obtain ⟨hq, hb, ht, hr, hn⟩ := hesc
      rw [show ('"' :: (l ++ ['"'])) ++ '\n' :: rest =
        '"' :: (((l.map escTFBChar).flatten) ++ '"' :: ('\n' :: rest)) from by
          rw [escTFB_flatten_id l hq hb ht hr hn]
          simp]
      rw [parseValueS_basic, scanBasicS_escTFB l hg ('\n' :: rest)]

theorem parse_tomliw_stream (l : List Char) (rest : List Char) :
    parseValueS (tomliw_format_string l ++ '\n' :: rest) = some (l, '\n' :: rest) := by
  unfold tomliw_format_string
  rw [show ('"' :: ((l.map tomliwFormatChar).flatten ++ ['"'])) ++ '\n' :: rest =
    '"' :: ((l.map tomliwFormatChar).flatten ++ '"' :: ('\n' :: rest)) from by simp]
  rw [parseValueS_basic, scanBasicS_tomliw l ('\n' :: rest)]

theorem span_bare (l : List Char) (hall : ∀ c ∈ l, bareKeyChar c = true)
    (d : Char) (hd : bareKeyChar d = false) (r : List Char) :
    (l ++ d :: r).takeWhile bareKeyChar = l ∧
    (l ++ d :: r).dropWhile bareKeyChar = d :: r := by
  induction l with
  | nil =>
    constructor
    · simp [List.takeWhile_cons, hd]
    · simp [List.dropWhile_cons, hd]
  | cons c rest ih =>
    have hc := hall c (List.mem_cons_self c rest)
    have ihr := ih fun c2 h2 => hall c2 (List.mem_cons_of_mem c h2)
    constructor
    · simp [List.takeWhile_cons, hc, ihr.1]
    · simp [List.dropWhile_cons, hc, ihr.2]

theorem parseHeaderAux_bare (p : List Char) (hall : ∀ c ∈ p, bareKeyChar c = true) :
    ∀ (suffix : List Char) (cur : List Char) (parts : List String),
    parseHeaderAux (p ++ suffix) cur parts = parseHeaderAux suffix (cur ++ p) parts := by
  induction p with
  | nil => intro suffix cur parts; simp
  | cons c prest ihp =>
    intro suffix cur parts
    have hc := hall c (List.mem_cons_self c prest)
    rw [List.cons_append,
      show parseHeaderAux (c :: (prest ++ suffix)) cur parts =
        parseHeaderAux (prest ++ suffix) (cur ++ [c]) parts from by
          simp [parseHeaderAux, hc],
      ihp (fun c2 h2 => hall c2 (List.mem_cons_of_mem c h2)) suffix (cur ++ [c]) parts]
    simp

theorem parseHeaderAux_dot (rest : List Char) (cur : List Char) (parts : List String)
    (hcur : ¬ cur = []) :
    parseHeaderAux ('.' :: rest) cur parts =
      parseHeaderAux rest [] (parts ++ [String.mk cur]) := by
  simp [parseHeaderAux, bareKeyChar, hcur]

theorem parseHeaderAux_close (rest : List Char) (cur : List Char) (parts : List String)
    (hcur : ¬ cur = []) :
    parseHeaderAux (']' :: rest) cur parts = some (parts ++ [String.mk cur], rest) := by
  simp [parseHeaderAux, bareKeyChar, hcur]

theorem bareName_ne_nil {s : String} (h : bareName s = true) : s.data ≠ [] := by
  unfold bareName at h
  rw [Bool.and_eq_true, Bool.not_eq_true'] at h
  intro e
  rw [e] at h
  exact absurd h.1 (by decide)

theorem bareName_all {s : String} (h : bareName s = true) :
    ∀ c ∈ s.data, bareKeyChar c = true := by
  unfold bareName at h
  rw [Bool.and_eq_true] at h
  rw [List.all_eq_true] at h
  exact fun c hc => h.2 c hc

theorem headerStep_one (tbls : TomlTables) (name : String) (rest : List Char)
    (hb : bareName name = true) (hnew : hasPath tbls [name] = false) :
    headerStep tbls (name.data ++ ']' :: '\n' :: rest) =
      StepRes.cont (tbls ++ [([name], [])]) [name] rest := by
  unfold headerStep
  rw [parseHeaderAux_bare name.data (bareName_all hb) (']' :: '\n' :: rest) [] [],
    List.nil_append,
    parseHeaderAux_close ('\n' :: rest) name.data [] (bareName_ne_nil hb)]
  simp [hnew]

theorem headerStep_two (tbls : TomlTables) (name s : String) (rest : List Char)
    (hbn : bareName name = true) (hbs : bareName s = true)
    (hnew : hasPath tbls [name, s] = false) :
    headerStep tbls (name.data ++ ('.' :: (s.data ++ (']' :: '\n' :: rest)))) =
      StepRes.cont (tbls ++ [([name, s], [])]) [name, s] rest := by
  unfold headerStep
  rw [parseHeaderAux_bare name.data (bareName_all hbn)
      ('.' :: (s.data ++ (']' :: '\n' :: rest))) [] [],
    List.nil_append,
    parseHeaderAux_dot (s.data ++ (']' :: '\n' :: rest)) name.data []
      (bareName_ne_nil hbn),
    parseHeaderAux_bare s.data (bareName_all hbs) (']' :: '\n' :: rest) [] _,
    List.nil_append,
    parseHeaderAux_close ('\n' :: rest) s.data _ (bareName_ne_nil hbs)]
  simp [hnew]

theorem parseDocAux_blank (fuel : Nat) (rest : List Char) (tbls : TomlTables)
    (cur : List String) :
    parseDocAux (fuel + 1) ('\n' :: rest) tbls cur = parseDocAux fuel rest tbls cur := by
  simp [parseDocAux]

theorem parseDocAux_header (fuel : Nat) (rest : List Char) (tbls : TomlTables)
    (cur : List String) (tbls2 : TomlTables) (cur2 : List String) (rest2 : List Char)
    (h : headerStep tbls rest = StepRes.cont tbls2 cur2 rest2) :
    parseDocAux (fuel + 1) ('[' :: rest) tbls cur = parseDocAux fuel rest2 tbls2 cur2 := by
  simp [parseDocAux, h]

theorem parseDocAux_kvline (fuel : Nat) (c : Char) (rest : List Char) (tbls : TomlTables)
    (cur : List String) (tbls2 : TomlTables) (cur2 : List String) (rest2 : List Char)
    (hbc : bareKeyChar c = true)
    (h : kvStep tbls cur c rest = StepRes.cont tbls2 cur2 rest2) :
    parseDocAux (fuel + 1) (c :: rest) tbls cur = parseDocAux fuel rest2 tbls2 cur2 := by
  have h1 : ¬ c = '\n' := by rintro rfl; exact absurd hbc (by decide)
  have h2 : ¬ c = '[' := by rintro rfl; exact absurd hbc (by decide)
  simp [parseDocAux, h1, h2, hbc, h]

theorem addKV_last (prev : TomlTables) (cur : List String)
    (done : List (String × String)) (k v : String)
    (hnp : ∀ e ∈ prev, e.1 ≠ cur)
    (hfresh : (done.any fun e => e.1 == k) = false) :
    addKV (prev ++ [(cur, done)]) cur k v = some (prev ++ [(cur, done ++ [(k, v)])]) := by
  induction prev with
  | nil => simp [addKV, hfresh]
  | cons e prest ih =>
    obtain ⟨p, kvs⟩ := e
    have hne : p ≠ cur := hnp (p, kvs) (List.mem_cons_self _ _)
    rw [List.cons_append, List.cons_append]
    rw [show addKV ((p, kvs) :: (prest ++ [(cur, done)])) cur k v =
      (addKV (prest ++ [(cur, done)]) cur k v).map (fun t => (p, kvs) :: t) from by
        simp [addKV, hne]]
    rw [ih fun e2 he2 => hnp e2 (List.mem_cons_of_mem _ he2)]
    rfl

theorem any_beq_false {done : List (String × String)} {k : String}
    (h : k ∉ done.map Prod.fst) : (done.any fun e => e.1 == k) = false := by
  rw [List.any_eq_false]
  intro e he hbeq
  exact h (List.mem_map.mpr ⟨e, he, eq_of_beq hbeq⟩)

theorem kvStep_fb (tbls : TomlTables) (cur : List String) (k v : String)
    (rest : List Char) (c : Char) (ktail : List Char) (hkd : k.data = c :: ktail)
    (hk : bareName k = true)
    (hv : ∀ c2 ∈ v.data, goodTomlChar c2 = true)
    (tbls2 : TomlTables) (ha : addKV tbls cur k v = some tbls2) :
    kvStep tbls cur c (ktail ++ (' ' :: '=' :: ' ' ::
        (escape_toml_value v.data ++ '\n' :: rest))) =
      StepRes.cont tbls2 cur rest := by
  unfold kvStep
  have hfull : c :: (ktail ++ (' ' :: '=' :: ' ' ::
      (escape_toml_value v.data ++ '\n' :: rest))) =
      k.data ++ ' ' :: (' ' :: '=' :: ' ' ::
        (escape_toml_value v.data ++ '\n' :: rest)).tail := by
    rw [hkd]
    rfl
  rw [hfull]
  have hspan := span_bare k.data (bareName_all hk) ' ' (by decide)
    ('=' :: ' ' :: (escape_toml_value v.data ++ '\n' :: rest))
  rw [show (' ' :: '=' :: ' ' :: (escape_toml_value v.data ++ '\n' :: rest)).tail =
    '=' :: ' ' :: (escape_toml_value v.data ++ '\n' :: rest) from rfl]
  rw [hspan.1, hspan.2]
  have hks : String.mk k.data = k := rfl
  have hvs : String.mk v.data = v := rfl
  simp [parse_escape_stream v.data hv rest, hks, hvs, ha]

theorem kvStep_tw (tbls : TomlTables) (cur : List String) (k v : String)
    (rest : List Char) (c : Char) (ktail : List Char) (hkd : k.data = c :: ktail)
    (hk : bareName k = true)
    (tbls2 : TomlTables) (ha : addKV tbls cur k v = some tbls2) :
    kvStep tbls cur c (ktail ++ (' ' :: '=' :: ' ' ::
        (tomliw_format_string v.data ++ '\n' :: rest))) =
      StepRes.cont tbls2 cur rest := by
  unfold kvStep
  have hfull : c :: (ktail ++ (' ' :: '=' :: ' ' ::
      (tomliw_format_string v.data ++ '\n' :: rest))) =
      k.data ++ ' ' :: (' ' :: '=' :: ' ' ::
        (tomliw_format_string v.data ++ '\n' :: rest)).tail := by
    rw [hkd]
    rfl
  rw [hfull]
  have hspan := span_bare k.data (bareName_all hk) ' ' (by decide)
    ('=' :: ' ' :: (tomliw_format_string v.data ++ '\n' :: rest))
  rw [show (' ' :: '=' :: ' ' :: (tomliw_format_string v.data ++ '\n' :: rest)).tail =
    '=' :: ' ' :: (tomliw_format_string v.data ++ '\n' :: rest) from rfl]
  rw [hspan.1, hspan.2]
  have hks : String.mk k.data = k := rfl
  have hvs : String.mk v.data = v := rfl
  simp [parse_tomliw_stream v.data rest, hks, hvs, ha]

theorem format_key_part_bare {k : String} (h : bareName k = true) :
    format_key_part k = k.data := by
  unfold format_key_part
  rw [if_pos ⟨bareName_ne_nil h, by rw [List.all_eq_true]; exact bareName_all h⟩]

theorem not_mem_left_of_nodup_append_cons {A B : List String} {k : String}
    (h : (A ++ k :: B).Nodup) : k ∉ A := by
  rw [List.nodup_append] at h
  intro hk
  exact h.2.2 hk (List.mem_cons_self k B)

theorem parseDocAux_kvs_fb (items : List (String × String)) :
    ∀ (prev : TomlTables) (done : List (String × String)) (cur : List String)
      (fuel : Nat) (rest : List Char),
    (∀ e ∈ prev, e.1 ≠ cur) →
    (∀ kv ∈ items, bareName kv.1 = true) →
    (∀ kv ∈ items, ∀ c2 ∈ kv.2.data, goodTomlChar c2 = true) →
    ((done ++ items).map Prod.fst).Nodup →
    parseDocAux (fuel + items.length) ((items.map kvLineFB).flatten ++ rest)
        (prev ++ [(cur, done)]) cur =
      parseDocAux fuel rest (prev ++ [(cur, done ++ items)]) cur := by
  induction items with
  | nil =>
    intro prev done cur fuel rest _ _ _ _
    simp
  | cons kv restitems ih =>
    intro prev done cur fuel rest hnp hbare hgood hnod
    obtain ⟨k, v⟩ := kv
    have hbk : bareName k = true := hbare (k, v) (List.mem_cons_self _ _)
    cases hkd : k.data with
    | nil => exact absurd hkd (bareName_ne_nil hbk)
    | cons c ktail =>
      rw [List.map_cons, List.flatten_cons, List.append_assoc]
      have hshape : kvLineFB (k, v) ++ ((restitems.map kvLineFB).flatten ++ rest) =
          c :: (ktail ++ (' ' :: '=' :: ' ' :: (escape_toml_value v.data ++
            '\n' :: ((restitems.map kvLineFB).flatten ++ rest)))) := by
        unfold kvLineFB
        rw [hkd]
        simp
      rw [hshape,
        show ((k, v) :: restitems).length = restitems.length + 1 from rfl,
        show fuel + (restitems.length + 1) = (fuel + restitems.length) + 1 from rfl]
      have hkfresh : k ∉ done.map Prod.fst := by
        rw [List.map_append, List.map_cons] at hnod
        exact not_mem_left_of_nodup_append_cons hnod
      have ha := addKV_last prev cur done k v hnp (any_beq_false hkfresh)
      have hbc : bareKeyChar c = true :=
        bareName_all hbk c (by rw [hkd]; exact List.mem_cons_self _ _)
      rw [parseDocAux_kvline _ _ _ _ _ _ _ _ hbc
        (kvStep_fb (prev ++ [(cur, done)]) cur k v
          ((restitems.map kvLineFB).flatten ++ rest) c ktail hkd hbk
          (hgood (k, v) (List.mem_cons_self _ _)) _ ha)]
      have hnod2 : (((done ++ [(k, v)]) ++ restitems).map Prod.fst).Nodup := by
        rw [List.append_assoc]
        exact hnod
      rw [ih prev (done ++ [(k, v)]) cur fuel rest hnp
        (fun kv2 h2 => hbare kv2 (List.mem_cons_of_mem _ h2))
        (fun kv2 h2 => hgood kv2 (List.mem_cons_of_mem _ h2)) hnod2,
        List.append_assoc]
      rfl

theorem parseDocAux_kvs_tw (items : List (String × String)) :
    ∀ (prev : TomlTables) (done : List (String × String)) (cur : List String)
      (fuel : Nat) (rest : List Char),
    (∀ e ∈ prev, e.1 ≠ cur) →
    (∀ kv ∈ items, bareName kv.1 = true) →
    ((done ++ items).map Prod.fst).Nodup →
    parseDocAux (fuel + items.length) ((items.map kvLineTW).flatten ++ rest)
        (prev ++ [(cur, done)]) cur =
      parseDocAux fuel rest (prev ++ [(cur, done ++ items)]) cur := by
  induction items with
  | nil =>
    intro prev done cur fuel rest _ _ _
    simp
  | cons kv restitems ih =>
    intro prev done cur fuel rest hnp hbare hnod
    obtain ⟨k, v⟩ := kv
    have hbk : bareName k = true := hbare (k, v) (List.mem_cons_self _ _)
    cases hkd : k.data with
    | nil => exact absurd hkd (bareName_ne_nil hbk)
    | cons c ktail =>
      rw [List.map_cons, List.flatten_cons, List.append_assoc]
      have hshape : kvLineTW (k, v) ++ ((restitems.map kvLineTW).flatten ++ rest) =
          c :: (ktail ++ (' ' :: '=' :: ' ' :: (tomliw_format_string v.data ++
            '\n' :: ((restitems.map kvLineTW).flatten ++ rest)))) := by
        unfold kvLineTW
        rw [format_key_part_bare hbk, hkd]
        simp
      rw [hshape,
        show ((k, v) :: restitems).length = restitems.length + 1 from rfl,
        show fuel + (restitems.length + 1) = (fuel + restitems.length) + 1 from rfl]
      have hkfresh : k ∉ done.map Prod.fst := by
        rw [List.map_append, List.map_cons] at hnod
        exact not_mem_left_of_nodup_append_cons hnod
      have ha := addKV_last prev cur done k v hnp (any_beq_false hkfresh)
      have hbc : bareKeyChar c = true :=
        bareName_all hbk c (by rw [hkd]; exact List.mem_cons_self _ _)
      rw [parseDocAux_kvline _ _ _ _ _ _ _ _ hbc
        (kvStep_tw (prev ++ [(cur, done)]) cur k v
          ((restitems.map kvLineTW).flatten ++ rest) c ktail hkd hbk _ ha)]
      have hnod2 : (((done ++ [(k, v)]) ++ restitems).map Prod.fst).Nodup := by
        rw [List.append_assoc]
        exact hnod
      rw [ih prev (done ++ [(k, v)]) cur fuel rest hnp
        (fun kv2 h2 => hbare kv2 (List.mem_cons_of_mem _ h2)) hnod2,
        List.append_assoc]
      rfl

/-- Items well-formed for the round trip: bare keys without duplicates and
values without carriage returns or stray control characters. -/
def goodItems (m : List (String × String)) : Bool :=
  m.all (fun kv => bareName kv.1 && kv.2.data.all goodTomlChar) &&
    decide ((m.map Prod.fst).Nodup)

/-- Group well-formed for the round trip: a bare name and three well-formed
item maps. -/
def wellFormedGroup (g : GroupData) : Bool :=
  bareName g.gname && goodItems g.aliases && goodItems g.env_vars &&
    goodItems g.functions

/-- Configuration well-formed for the round trip: distinct bare group names
and well-formed groups. -/
def wellFormedConfig (groups : List GroupData) : Bool :=
  groups.all wellFormedGroup && decide ((groups.map GroupData.gname).Nodup)

theorem goodItems_bare {m : List (String × String)} (h : goodItems m = true) :
    ∀ kv ∈ m, bareName kv.1 = true := by
  unfold goodItems at h
  rw [Bool.and_eq_true, List.all_eq_true] at h
  intro kv hkv
  have := h.1 kv hkv
  rw [Bool.and_eq_true] at this
  exact this.1

theorem goodItems_values {m : List (String × String)} (h : goodItems m = true) :
    ∀ kv ∈ m, ∀ c2 ∈ kv.2.data, goodTomlChar c2 = true := by
  unfold goodItems at h
  rw [Bool.and_eq_true, List.all_eq_true] at h
  intro kv hkv
  have := h.1 kv hkv
  rw [Bool.and_eq_true, List.all_eq_true] at this
  exact this.2

theorem goodItems_nodup {m : List (String × String)} (h : goodItems m = true) :
    (m.map Prod.fst).Nodup := by
  unfold goodItems at h
  rw [Bool.and_eq_true, decide_eq_true_eq] at h
  exact h.2

theorem wellFormedGroup_parts {g : GroupData} (h : wellFormedGroup g = true) :
    bareName g.gname = true ∧ goodItems g.aliases = true ∧
    goodItems g.env_vars = true ∧ goodItems g.functions = true := by
  unfold wellFormedGroup at h
  rw [Bool.and_eq_true, Bool.and_eq_true, Bool.and_eq_true] at h
  exact ⟨h.1.1.1, h.1.1.2, h.1.2, h.2⟩

theorem wellFormedConfig_parts {groups : List GroupData}
    (h : wellFormedConfig groups = true) :
    (∀ g ∈ groups, wellFormedGroup g = true) ∧
    (groups.map GroupData.gname).Nodup := by
  unfold wellFormedConfig at h
  rw [Bool.and_eq_true, List.all_eq_true, decide_eq_true_eq] at h
  exact h

theorem insertSorted_perm (x : String × String) (l : List (String × String)) :
    (insertSorted x l).Perm (x :: l) := by
  induction l with
  | nil => exact List.Perm.refl _
  | cons y rest ih =>
    unfold insertSorted
    by_cases h : x.1 ≤ y.1
    · rw [if_pos h]
    · rw [if_neg h]
      exact (ih.cons y).trans (List.Perm.swap x y rest)

theorem sortKVs_perm (m : List (String × String)) : (sortKVs m).Perm m := by
  induction m with
  | nil => exact List.Perm.refl _
  | cons x rest ih =>
    unfold sortKVs
    exact (insertSorted_perm x (sortKVs rest)).trans (ih.cons x)

theorem sortKVs_mem {kv : String × String} {m : List (String × String)} :
    kv ∈ sortKVs m ↔ kv ∈ m :=
  (sortKVs_perm m).mem_iff

theorem sortKVs_keys_nodup {m : List (String × String)}
    (h : (m.map Prod.fst).Nodup) : ((sortKVs m).map Prod.fst).Nodup :=
  (((sortKVs_perm m).map Prod.fst).nodup_iff).mpr h

theorem hasPath_false_forall {tbls : TomlTables} {p : List String}
    (h : hasPath tbls p = false) : ∀ e ∈ tbls, e.1 ≠ p := by
  unfold hasPath at h
  rw [List.any_eq_false] at h
  intro e he heq
  exact h e he (by rw [heq]; exact beq_self_eq_true p)

theorem hasPath_false_of_head (tbls : TomlTables) (p : List String) (x : String)
    (hp : p.head? = some x) (hfresh : ∀ e ∈ tbls, e.1.head? ≠ some x) :
    hasPath tbls p = false := by
  unfold hasPath
  rw [List.any_eq_false]
  intro e he hbeq
  exact hfresh e he (by rw [eq_of_beq hbeq, hp])

theorem hasPath_append (a b : TomlTables) (p : List String) :
    hasPath (a ++ b) p = (hasPath a p || hasPath b p) := by
  unfold hasPath
  rw [List.any_append]

theorem parseDocAux_section_fb (gname sname : String) (items : List (String × String))
    (fuel : Nat) (rest : List Char) (tbls : TomlTables) (cur : List String)
    (hbn : bareName gname = true) (hbs : bareName sname = true)
    (hnew : hasPath tbls [gname, sname] = false)
    (hbare : ∀ kv ∈ items, bareName kv.1 = true)
    (hgood : ∀ kv ∈ items, ∀ c2 ∈ kv.2.data, goodTomlChar c2 = true)
    (hnod : (items.map Prod.fst).Nodup) :
    parseDocAux (fuel + (1 + (sortKVs items).length))
        (sectionFB gname sname items ++ rest) tbls cur =
      parseDocAux fuel rest (tbls ++ [([gname, sname], sortKVs items)])
        [gname, sname] := by
  have hshape : sectionFB gname sname items ++ rest =
      '[' :: (gname.data ++ ('.' :: (sname.data ++ (']' :: '\n' ::
        (((sortKVs items).map kvLineFB).flatten ++ rest))))) := by
    unfold sectionFB
    simp
  rw [hshape,
    show fuel + (1 + (sortKVs items).length) =
      ((fuel + (sortKVs items).length)) + 1 from by omega,
    parseDocAux_header _ _ _ _ _ _ _
      (headerStep_two tbls gname sname _ hbn hbs hnew)]
  have step := parseDocAux_kvs_fb (sortKVs items) tbls [] [gname, sname] fuel rest
    (hasPath_false_forall hnew)
    (fun kv h2 => hbare kv (sortKVs_mem.mp h2))
    (fun kv h2 => hgood kv (sortKVs_mem.mp h2))
    (by rw [List.nil_append]; exact sortKVs_keys_nodup hnod)
  rw [List.nil_append] at step
  exact step

theorem parseDocAux_section_tw (gname sname : String) (items : List (String × String))
    (fuel : Nat) (rest : List Char) (tbls : TomlTables) (cur : List String)
    (hbn : bareName gname = true) (hbs : bareName sname = true)
    (hnew : hasPath tbls [gname, sname] = false)
    (hbare : ∀ kv ∈ items, bareName kv.1 = true)
    (hnod : (items.map Prod.fst).Nodup) :
    parseDocAux (fuel + (1 + items.length)) (sectionTW gname sname items ++ rest)
        tbls cur =
      parseDocAux fuel rest (tbls ++ [([gname, sname], items)])
        [gname, sname] := by
  have hshape : sectionTW gname sname items ++ rest =
      '[' :: (gname.data ++ ('.' :: (sname.data ++ (']' :: '\n' ::
        ((items.map kvLineTW).flatten ++ rest))))) := by
    unfold sectionTW
    rw [format_key_part_bare hbn]
    simp
  rw [hshape,
    show fuel + (1 + items.length) = ((fuel + items.length)) + 1 from by omega,
    parseDocAux_header _ _ _ _ _ _ _
      (headerStep_two tbls gname sname _ hbn hbs hnew)]
  have step := parseDocAux_kvs_tw items tbls [] [gname, sname] fuel rest
    (hasPath_false_forall hnew) hbare (by rw [List.nil_append]; exact hnod)
  rw [List.nil_append] at step
  exact step

theorem hasPath_false_of_ne_all (tbls : TomlTables) (p : List String)
    (h : ∀ e ∈ tbls, e.1 ≠ p) : hasPath tbls p = false := by
  unfold hasPath
  rw [List.any_eq_false]
  intro e he hbeq
  exact h e he (eq_of_beq hbeq)

theorem path_one_ne_two (a b c : String) : ([a] : List String) ≠ [b, c] := by
  intro heq
  rw [List.cons.injEq] at heq
  exact absurd heq.2 (by simp)

theorem path_two_ne_of_fst {a b : String} (s t : String) (h : a ≠ b) :
    ([a, s] : List String) ≠ [b, t] := by
  intro heq
  rw [List.cons.injEq] at heq
  exact h heq.1

theorem path_two_ne_of_snd (a : String) {s t : String} (h : s ≠ t) :
    ([a, s] : List String) ≠ [a, t] := by
  intro heq
  rw [List.cons.injEq, List.cons.injEq] at heq
  exact h heq.2.1

theorem sortKVs_length (m : List (String × String)) :
    (sortKVs m).length = m.length :=
  (sortKVs_perm m).length_eq

/-- The four tables one fallback-writer group block declares, in order. -/
def groupTblsFB (g : GroupData) : TomlTables :=
  [([g.gname], []), ([g.gname, "aliases"], sortKVs g.aliases),
   ([g.gname, "env_vars"], sortKVs g.env_vars),
   ([g.gname, "functions"], sortKVs g.functions)]

/-- Logical lines of one fallback-writer group block. -/
def ticksFB (g : GroupData) : Nat :=
  7 + (sortKVs g.aliases).length +
    ((sortKVs g.env_vars).length + (sortKVs g.functions).length)

/-- All tables the fallback-writer document declares. -/
def canonFB (groups : List GroupData) : TomlTables :=
  (groups.map groupTblsFB).flatten

/-- Logical lines of the whole fallback-writer document. -/
def ticksDocFB (groups : List GroupData) : Nat :=
  (groups.map ticksFB).sum

theorem groupTblsFB_head (g : GroupData) :
    ∀ e ∈ groupTblsFB g, e.1.head? = some g.gname := by
  intro e he
  simp only [groupTblsFB, List.mem_cons, List.not_mem_nil, or_false] at he
  rcases he with rfl | rfl | rfl | rfl <;> rfl

theorem not_mem_append2 {α : Type} {a : α} {l1 l2 : List α} (h1 : a ∉ l1)
    (h2 : a ∉ l2) : a ∉ l1 ++ l2 := by
  rw [List.mem_append]
  rintro (h | h)
  · exact h1 h
  · exact h2 h

theorem not_mem_cons2 {α : Type} {a b : α} {l : List α} (h1 : a ≠ b)
    (h2 : a ∉ l) : a ∉ b :: l := by
  rw [List.mem_cons]
  rintro (h | h)
  · exact h1 h
  · exact h2 h

theorem not_mem_flatten2 {α : Type} {a : α} {ls : List (List α)}
    (h : ∀ l ∈ ls, a ∉ l) : a ∉ ls.flatten := by
  rw [List.mem_flatten]
  rintro ⟨l, hl, hmem⟩
  exact h l hl hmem

theorem bareKeyChar_ne_cr {c : Char} (h : bareKeyChar c = true) : ¬ c = '\r' := by
  rintro rfl
  exact absurd h (by decide)

theorem no_cr_bare {s : String} (h : bareName s = true) : '\r' ∉ s.data := by
  intro hmem
  exact bareKeyChar_ne_cr (bareName_all h '\r' hmem) rfl

theorem no_cr_basic_wrap (v : List Char) (hv : '\r' ∉ v) :
    '\r' ∉ '"' :: (basicEscapeTFB v ++ ['"']) := by
  rw [basicEscapeTFB_eq]
  intro hmem
  rw [List.mem_cons, List.mem_append, List.mem_singleton] at hmem
  rcases hmem with h | h | h
  · exact absurd h (by decide)
  · rw [List.mem_flatten] at h
    obtain ⟨s, hs, hmem2⟩ := h
    rw [List.mem_map] at hs
    obtain ⟨c, hc, rfl⟩ := hs
    exact escTFBChar_no_cr c (fun hceq => hv (hceq ▸ hc)) hmem2
  · exact absurd h (by decide)

theorem no_cr_escape_toml_value (v : List Char) (hv : '\r' ∉ v) :
    '\r' ∉ escape_toml_value v := by
  unfold escape_toml_value
  by_cases hnl : '\n' ∈ v ∨ '\r' ∈ v
  · rw [if_pos hnl]
    by_cases htr : hasTripleQuote v = true
    · rw [if_pos htr]
      exact no_cr_basic_wrap v hv
    · rw [if_neg htr]
      intro hmem
      simp only [List.mem_cons, List.mem_append, List.mem_singleton] at hmem
      rcases hmem with h | h | h | h | h | h | h | h
      · exact absurd h (by decide)
      · exact absurd h (by decide)
      · exact absurd h (by decide)
      · exact absurd h (by decide)
      · exact hv h
      · exact absurd h (by decide)
      · exact absurd h (by decide)
      · exact absurd h (by decide)
  · rw [if_neg hnl]
    by_cases hsp : '"' ∈ v ∨ '\\' ∈ v ∨ '\t' ∈ v ∨ '\r' ∈ v ∨ '\n' ∈ v
    · rw [if_pos hsp]
      exact no_cr_basic_wrap v hv
    · rw [if_neg hsp]
      intro hmem
      simp only [List.mem_cons, List.mem_append, List.mem_singleton] at hmem
      rcases hmem with h | h | h
      · exact absurd h (by decide)
      · exact hv h
      · exact absurd h (by decide)

theorem no_cr_tomliw_format_string (v : List Char) : '\r' ∉ tomliw_format_string v := by
  unfold tomliw_format_string
  intro hmem
  rw [List.mem_cons, List.mem_append, List.mem_singleton] at hmem
  rcases hmem with h | h | h
  · exact absurd h (by decide)
  · rw [List.mem_flatten] at h
    obtain ⟨s, hs, hmem2⟩ := h
    rw [List.mem_map] at hs
    obtain ⟨c, _, rfl⟩ := hs
    exact tomliwFormatChar_no_cr c hmem2
  · exact absurd h (by decide)

theorem no_cr_kvLineFB (kv : String × String) (hk : bareName kv.1 = true)
    (hv : ∀ c ∈ kv.2.data, goodTomlChar c = true) : '\r' ∉ kvLineFB kv := by
  unfold kvLineFB
  exact not_mem_append2 (no_cr_bare hk)
    (not_mem_cons2 (by decide) (not_mem_cons2 (by decide) (not_mem_cons2 (by decide)
      (not_mem_append2
        (no_cr_escape_toml_value kv.2.data
          (fun hr => absurd (hv '\r' hr) (by decide)))
        (by decide)))))

theorem no_cr_sectionFB (gname sname : String) (items : List (String × String))
    (hg : bareName gname = true) (hs : bareName sname = true)
    (hit : goodItems items = true) : '\r' ∉ sectionFB gname sname items := by
  unfold sectionFB
  exact not_mem_append2
    (not_mem_append2
      (not_mem_append2 (not_mem_cons2 (by decide) (no_cr_bare hg))
        (not_mem_cons2 (by decide) (no_cr_bare hs)))
      (by decide))
    (not_mem_flatten2 (fun l hl => by
      rw [List.mem_map] at hl
      obtain ⟨kv, hkv, rfl⟩ := hl
      exact no_cr_kvLineFB kv (goodItems_bare hit kv (sortKVs_mem.mp hkv))
        (goodItems_values hit kv (sortKVs_mem.mp hkv))))

theorem no_cr_groupBlockFB (g : GroupData) (hwf : wellFormedGroup g = true) :
    '\r' ∉ groupBlockFB g := by
  obtain ⟨hbn, hga, hge, hgf⟩ := wellFormedGroup_parts hwf
  unfold groupBlockFB
  exact not_mem_append2
    (not_mem_append2
      (not_mem_append2
        (not_mem_append2
          (not_mem_append2
            (not_mem_append2
              (not_mem_append2 (not_mem_cons2 (by decide) (no_cr_bare hbn))
                (by decide))
              (no_cr_sectionFB g.gname "aliases" g.aliases hbn (by decide) hga))
            (by decide))
          (no_cr_sectionFB g.gname "env_vars" g.env_vars hbn (by decide) hge))
        (by decide))
      (no_cr_sectionFB g.gname "functions" g.functions hbn (by decide) hgf))
    (by decide)

theorem no_cr_save_fb (groups : List GroupData)
    (hall : ∀ g ∈ groups, wellFormedGroup g = true) :
    '\r' ∉ save_config_fallback groups := by
  unfold save_config_fallback
  apply not_mem_flatten2
  intro l hl
  rw [List.mem_map] at hl
  obtain ⟨g, hg, rfl⟩ := hl
  exact no_cr_groupBlockFB g (hall g hg)

theorem no_cr_format_key_part (k : String) : '\r' ∉ format_key_part k := by
  unfold format_key_part
  by_cases h : k.data ≠ [] ∧ k.data.all bareKeyChar
  · rw [if_pos h]
    intro hmem
    have h2 := h.2
    rw [List.all_eq_true] at h2
    exact bareKeyChar_ne_cr (h2 '\r' hmem) rfl
  · rw [if_neg h]
    exact no_cr_tomliw_format_string k.data

theorem no_cr_kvLineTW (kv : String × String) : '\r' ∉ kvLineTW kv := by
  unfold kvLineTW
  exact not_mem_append2 (no_cr_format_key_part kv.1)
    (not_mem_cons2 (by decide) (not_mem_cons2 (by decide) (not_mem_cons2 (by decide)
      (not_mem_append2 (no_cr_tomliw_format_string kv.2.data) (by decide)))))

theorem no_cr_sectionTW (gname sname : String) (items : List (String × String))
    (hs : bareName sname = true) : '\r' ∉ sectionTW gname sname items := by
  unfold sectionTW
  exact not_mem_append2
    (not_mem_append2
      (not_mem_append2 (not_mem_cons2 (by decide) (no_cr_format_key_part gname))
        (not_mem_cons2 (by decide) (no_cr_bare hs)))
      (by decide))
    (not_mem_flatten2 (fun l hl => by
      rw [List.mem_map] at hl
      obtain ⟨kv, _, rfl⟩ := hl
      exact no_cr_kvLineTW kv))

theorem no_cr_joinBlankLines (chunks : List (List Char))
    (h : ∀ c ∈ chunks, '\r' ∉ c) : '\r' ∉ joinBlankLines chunks := by
  induction chunks with
  | nil =>
    intro hmem
    exact absurd hmem (List.not_mem_nil '\r')
  | cons c rest ih =>
    cases rest with
    | nil => exact h c (List.mem_cons_self c [])
    | cons c2 rest2 =>
      rw [show joinBlankLines (c :: c2 :: rest2) =
        c ++ '\n' :: joinBlankLines (c2 :: rest2) from rfl]
      exact not_mem_append2 (h c (List.mem_cons_self c _))
        (not_mem_cons2 (by decide)
          (ih fun c3 h3 => h c3 (List.mem_cons_of_mem c h3)))

theorem no_cr_save_tw (groups : List GroupData) :
    '\r' ∉ save_config_tomliw groups := by
  unfold save_config_tomliw
  apply no_cr_joinBlankLines
  intro c hc
  unfold sectionsTW at hc
  rw [List.mem_map] at hc
  obtain ⟨t, ht, rfl⟩ := hc
  apply no_cr_sectionTW
  unfold secTriples at ht
  rw [List.mem_flatten] at ht
  obtain ⟨l, hl, htl⟩ := ht
  rw [List.mem_map] at hl
  obtain ⟨g, hg, rfl⟩ := hl
  rw [List.mem_cons, List.mem_cons, List.mem_singleton] at htl
  rcases htl with rfl | rfl | rfl
  · exact (by decide : bareName "aliases" = true)
  · exact (by decide : bareName "env_vars" = true)
  · exact (by decide : bareName "functions" = true)

theorem length_kvLineFB_pos (kv : String × String) : 1 ≤ (kvLineFB kv).length := by
  unfold kvLineFB
  simp only [List.length_append, List.length_cons]
  omega

theorem length_kvLineTW_pos (kv : String × String) : 1 ≤ (kvLineTW kv).length := by
  unfold kvLineTW
  simp only [List.length_append, List.length_cons]
  omega

theorem flatten_len_ge (f : (String × String) → List Char)
    (hf : ∀ kv, 1 ≤ (f kv).length) (items : List (String × String)) :
    items.length ≤ ((items.map f).flatten).length := by
  induction items with
  | nil => simp
  | cons kv rest ih =>
    rw [List.map_cons, List.flatten_cons, List.length_append, List.length_cons]
    have := hf kv
    omega

theorem ticksFB_le_len (g : GroupData) : ticksFB g ≤ (groupBlockFB g).length := by
  have hA := flatten_len_ge kvLineFB length_kvLineFB_pos (sortKVs g.aliases)
  have hE := flatten_len_ge kvLineFB length_kvLineFB_pos (sortKVs g.env_vars)
  have hF := flatten_len_ge kvLineFB length_kvLineFB_pos (sortKVs g.functions)
  unfold ticksFB groupBlockFB sectionFB
  simp only [List.length_append, List.length_cons, List.length_nil]
  omega

theorem ticksDocFB_le_len (groups : List GroupData) :
    ticksDocFB groups ≤ (save_config_fallback groups).length := by
  induction groups with
  | nil => exact Nat.le_refl 0
  | cons g rest ih =>
    have hstep : save_config_fallback (g :: rest) =
        groupBlockFB g ++ save_config_fallback rest := by
      unfold save_config_fallback
      rw [List.map_cons, List.flatten_cons]
    have htick : ticksDocFB (g :: rest) = ticksFB g + ticksDocFB rest := by
      unfold ticksDocFB
      rw [List.map_cons, List.sum_cons]
    rw [hstep, htick, List.length_append]
    have := ticksFB_le_len g
    omega

theorem parseDocAux_block_fb (g : GroupData) (fuel : Nat) (rest : List Char)
    (tbls : TomlTables) (cur : List String)
    (hwf : wellFormedGroup g = true)
    (hfresh : ∀ e ∈ tbls, e.1.head? ≠ some g.gname) :
    parseDocAux (fuel + ticksFB g) (groupBlockFB g ++ rest) tbls cur =
      parseDocAux fuel rest (tbls ++ groupTblsFB g) [g.gname, "functions"] := by
  obtain ⟨hbn, hga, hge, hgf⟩ := wellFormedGroup_parts hwf
  have hshape : groupBlockFB g ++ rest =
      '[' :: (g.gname.data ++ (']' :: '\n' ::
        (sectionFB g.gname "aliases" g.aliases ++ ('\n' ::
          (sectionFB g.gname "env_vars" g.env_vars ++ ('\n' ::
            (sectionFB g.gname "functions" g.functions ++ ('\n' :: rest)))))))) := by
    unfold groupBlockFB
    simp
  have hnew1 : hasPath tbls [g.gname] = false :=
    hasPath_false_of_head tbls [g.gname] g.gname rfl hfresh
  have hnew2 : hasPath (tbls ++ [([g.gname], [])]) [g.gname, "aliases"] = false := by
    apply hasPath_false_of_ne_all
    intro e he
    rcases List.mem_append.mp he with h1 | h1
    · intro heq
      exact hfresh e h1 (by rw [heq]; rfl)
    · rw [List.mem_singleton] at h1
      rw [h1]
      exact path_one_ne_two g.gname g.gname "aliases"
  have hnew3 : hasPath (tbls ++ [([g.gname], [])] ++
      [([g.gname, "aliases"], sortKVs g.aliases)]) [g.gname, "env_vars"] = false := by
    apply hasPath_false_of_ne_all
    intro e he
    rcases List.mem_append.mp he with h1 | h1
    · rcases List.mem_append.mp h1 with h2 | h2
      · intro heq
        exact hfresh e h2 (by rw [heq]; rfl)
      · rw [List.mem_singleton] at h2
        rw [h2]
        exact path_one_ne_two g.gname g.gname "env_vars"
    · rw [List.mem_singleton] at h1
      rw [h1]
      exact path_two_ne_of_snd g.gname (by decide)
  have hnew4 : hasPath (tbls ++ [([g.gname], [])] ++
      [([g.gname, "aliases"], sortKVs g.aliases)] ++
      [([g.gname, "env_vars"], sortKVs g.env_vars)]) [g.gname, "functions"] = false := by
    apply hasPath_false_of_ne_all
    intro e he
    rcases List.mem_append.mp he with h1 | h1
    · rcases List.mem_append.mp h1 with h2 | h2
      · rcases List.mem_append.mp h2 with h3 | h3
        · intro heq
          exact hfresh e h3 (by rw [heq]; rfl)
        · rw [List.mem_singleton] at h3
          rw [h3]
          exact path_one_ne_two g.gname g.gname "functions"
      · rw [List.mem_singleton] at h2
        rw [h2]
        exact path_two_ne_of_snd g.gname (by decide)
    · rw [List.mem_singleton] at h1
      rw [h1]
      exact path_two_ne_of_snd g.gname (by decide)
  rw [hshape,
    show fuel + ticksFB g = ((fuel + (5 + ((sortKVs g.env_vars).length +
      (sortKVs g.functions).length))) + (1 + (sortKVs g.aliases).length)) + 1 from by
        unfold ticksFB; omega,
    parseDocAux_header _ _ _ _ _ _ _ (headerStep_one tbls g.gname _ hbn hnew1),
    parseDocAux_section_fb g.gname "aliases" g.aliases _ _ _ _ hbn (by decide)
      hnew2 (goodItems_bare hga) (goodItems_values hga) (goodItems_nodup hga),
    show fuel + (5 + ((sortKVs g.env_vars).length + (sortKVs g.functions).length)) =
      (fuel + (4 + ((sortKVs g.env_vars).length + (sortKVs g.functions).length))) + 1
      from by omega,
    parseDocAux_blank,
    show fuel + (4 + ((sortKVs g.env_vars).length + (sortKVs g.functions).length)) =
      ((fuel + (3 + (sortKVs g.functions).length)) + (1 + (sortKVs g.env_vars).length))
      from by omega,
    parseDocAux_section_fb g.gname "env_vars" g.env_vars _ _ _ _ hbn (by decide)
      hnew3 (goodItems_bare hge) (goodItems_values hge) (goodItems_nodup hge),
    show fuel + (3 + (sortKVs g.functions).length) =
      (fuel + (2 + (sortKVs g.functions).length)) + 1 from by omega,
    parseDocAux_blank,
    show fuel + (2 + (sortKVs g.functions).length) =
      ((fuel + 1) + (1 + (sortKVs g.functions).length)) from by omega,
    parseDocAux_section_fb g.gname "functions" g.functions _ _ _ _ hbn (by decide)
      hnew4 (goodItems_bare hgf) (goodItems_values hgf) (goodItems_nodup hgf),
    parseDocAux_blank]
  simp [groupTblsFB]

theorem parseDocAux_doc_fb (groups : List GroupData) :
    ∀ (fuel : Nat) (tbls : TomlTables) (cur : List String),
    (∀ g ∈ groups, wellFormedGroup g = true) →
    (groups.map GroupData.gname).Nodup →
    (∀ e ∈ tbls, ∀ g ∈ groups, e.1.head? ≠ some g.gname) →
    parseDocAux (fuel + ticksDocFB groups) (save_config_fallback groups) tbls cur =
      some (tbls ++ canonFB groups) := by
  induction groups with
  | nil =>
    intro fuel tbls cur _ _ _
    show parseDocAux (fuel + ticksDocFB []) [] tbls cur = some (tbls ++ canonFB [])
    rw [show parseDocAux (fuel + ticksDocFB []) [] tbls cur = some tbls from by
      cases fuel + ticksDocFB [] <;> rfl]
    rw [show canonFB [] = [] from rfl, List.append_nil]
  | cons g rest ih =>
    intro fuel tbls cur hwf hnodup hfresh
    have hsave : save_config_fallback (g :: rest) =
        groupBlockFB g ++ save_config_fallback rest := by
      unfold save_config_fallback
      rw [List.map_cons, List.flatten_cons]
    have hnodup2 := hnodup
    rw [List.map_cons, List.nodup_cons] at hnodup2
    rw [hsave,
      show fuel + ticksDocFB (g :: rest) = (fuel + ticksDocFB rest) + ticksFB g from by
        unfold ticksDocFB; rw [List.map_cons, List.sum_cons]; omega,
      parseDocAux_block_fb g _ _ tbls cur (hwf g (List.mem_cons_self g rest))
        (fun e he => hfresh e he g (List.mem_cons_self g rest)),
      ih fuel (tbls ++ groupTblsFB g) [g.gname, "functions"]
        (fun g2 h2 => hwf g2 (List.mem_cons_of_mem g h2)) hnodup2.2
        (by
          intro e he g2 h2
          rcases List.mem_append.mp he with h1 | h1
          · exact hfresh e h1 g2 (List.mem_cons_of_mem g h2)
          · rw [groupTblsFB_head g e h1]
            intro heq
            have hgg : g.gname = g2.gname := Option.some.inj heq
            exact hnodup2.1 (List.mem_map.mpr ⟨g2, h2, hgg.symm⟩))]
    rw [show canonFB (g :: rest) = groupTblsFB g ++ canonFB rest from by
      unfold canonFB; rw [List.map_cons, List.flatten_cons], List.append_assoc]

/-- Logical lines of the tomli_w document for a list of sub-table triples,
counting the blank separator lines. -/
def ticksTW : List (String × String × List (String × String)) → Nat
  | [] => 0
  | [t] => 1 + t.2.2.length
  | t :: rest => (1 + t.2.2.length) + (1 + ticksTW rest)

/-- The tables the tomli_w document declares, one per triple. -/
def canonTW (ts : List (String × String × List (String × String))) : TomlTables :=
  ts.map fun t => ([t.1, t.2.1], t.2.2)

theorem length_sectionTW_ge (gname sname : String) (items : List (String × String)) :
    1 + items.length ≤ (sectionTW gname sname items).length := by
  have h := flatten_len_ge kvLineTW length_kvLineTW_pos items
  unfold sectionTW
  simp only [List.length_append, List.length_cons, List.length_nil]
  omega

theorem ticksTW_le_len (ts : List (String × String × List (String × String))) :
    ticksTW ts ≤
      (joinBlankLines (ts.map fun t => sectionTW t.1 t.2.1 t.2.2)).length := by
  induction ts with
  | nil => exact Nat.le_refl 0
  | cons t rest ih =>
    cases rest with
    | nil =>
      rw [show ticksTW [t] = 1 + t.2.2.length from rfl,
        show joinBlankLines ([t].map fun t2 => sectionTW t2.1 t2.2.1 t2.2.2) =
          sectionTW t.1 t.2.1 t.2.2 from rfl]
      exact length_sectionTW_ge t.1 t.2.1 t.2.2
    | cons t2 rest2 =>
      rw [show ticksTW (t :: t2 :: rest2) =
          (1 + t.2.2.length) + (1 + ticksTW (t2 :: rest2)) from rfl,
        show joinBlankLines ((t :: t2 :: rest2).map fun t3 =>
            sectionTW t3.1 t3.2.1 t3.2.2) =
          sectionTW t.1 t.2.1 t.2.2 ++ '\n' ::
            joinBlankLines ((t2 :: rest2).map fun t3 =>
              sectionTW t3.1 t3.2.1 t3.2.2) from rfl,
        List.length_append, List.length_cons]
      have h := length_sectionTW_ge t.1 t.2.1 t.2.2
      omega

theorem parseDocAux_docs_tw (ts : List (String × String × List (String × String))) :
    ∀ (fuel : Nat) (tbls : TomlTables) (cur : List String),
    (∀ t ∈ ts, bareName t.1 = true) →
    (∀ t ∈ ts, bareName t.2.1 = true) →
    (∀ t ∈ ts, goodItems t.2.2 = true) →
    (∀ e ∈ tbls, ∀ t ∈ ts, e.1 ≠ [t.1, t.2.1]) →
    (ts.map fun t => ([t.1, t.2.1] : List String)).Nodup →
    parseDocAux (fuel + ticksTW ts)
        (joinBlankLines (ts.map fun t => sectionTW t.1 t.2.1 t.2.2)) tbls cur =
      some (tbls ++ canonTW ts) := by
  induction ts with
  | nil =>
    intro fuel tbls cur _ _ _ _ _
    rw [List.map_nil, show joinBlankLines [] = ([] : List Char) from rfl,
      show parseDocAux (fuel + ticksTW []) [] tbls cur = some tbls from by
        cases fuel + ticksTW [] <;> rfl,
      show canonTW [] = [] from rfl, List.append_nil]
  | cons t rest ih =>
    intro fuel tbls cur hb1 hb2 hgood hfresh hnodup
    have hnew : hasPath tbls [t.1, t.2.1] = false :=
      hasPath_false_of_ne_all tbls _
        (fun e he => hfresh e he t (List.mem_cons_self t rest))
    have hgt := hgood t (List.mem_cons_self t rest)
    cases rest with
    | nil =>
      rw [show joinBlankLines ([t].map fun t2 => sectionTW t2.1 t2.2.1 t2.2.2) =
          sectionTW t.1 t.2.1 t.2.2 ++ [] from (List.append_nil _).symm,
        show ticksTW [t] = 1 + t.2.2.length from rfl,
        parseDocAux_section_tw t.1 t.2.1 t.2.2 fuel [] tbls cur
          (hb1 t (List.mem_cons_self t []))
          (hb2 t (List.mem_cons_self t []))
          hnew (goodItems_bare hgt) (goodItems_nodup hgt),
        show parseDocAux fuel [] (tbls ++ [([t.1, t.2.1], t.2.2)]) [t.1, t.2.1] =
          some (tbls ++ [([t.1, t.2.1], t.2.2)]) from by
            cases fuel <;> rfl]
      rfl
    | cons t2 rest2 =>
      have hnodup2 := hnodup
      rw [List.map_cons, List.nodup_cons] at hnodup2
      rw [show joinBlankLines ((t :: t2 :: rest2).map fun t3 =>
            sectionTW t3.1 t3.2.1 t3.2.2) =
          sectionTW t.1 t.2.1 t.2.2 ++ '\n' ::
            joinBlankLines ((t2 :: rest2).map fun t3 =>
              sectionTW t3.1 t3.2.1 t3.2.2) from rfl,
        show fuel + ticksTW (t :: t2 :: rest2) =
          (((fuel + ticksTW (t2 :: rest2)) + 1) + (1 + t.2.2.length)) from by
            rw [show ticksTW (t :: t2 :: rest2) =
              (1 + t.2.2.length) + (1 + ticksTW (t2 :: rest2)) from rfl]
            omega,
        parseDocAux_section_tw t.1 t.2.1 t.2.2 _ _ tbls cur
          (hb1 t (List.mem_cons_self t _))
          (hb2 t (List.mem_cons_self t _))
          hnew (goodItems_bare hgt) (goodItems_nodup hgt),
        parseDocAux_blank,
        ih fuel (tbls ++ [([t.1, t.2.1], t.2.2)]) [t.1, t.2.1]
          (fun t3 h3 => hb1 t3 (List.mem_cons_of_mem t h3))
          (fun t3 h3 => hb2 t3 (List.mem_cons_of_mem t h3))
          (fun t3 h3 => hgood t3 (List.mem_cons_of_mem t h3))
          (by
            intro e he t3 h3
            rcases List.mem_append.mp he with h1 | h1
            · exact hfresh e h1 t3 (List.mem_cons_of_mem t h3)
            · rw [List.mem_singleton] at h1
              rw [h1]
              intro heq
              exact hnodup2.1 (List.mem_map.mpr ⟨t3, h3, heq.symm⟩))
          hnodup2.2,
        show canonTW (t :: t2 :: rest2) =
          ([t.1, t.2.1], t.2.2) :: canonTW (t2 :: rest2) from rfl,
        List.append_assoc, List.singleton_append]

theorem parse_save_fb (groups : List GroupData)
    (hwf : wellFormedConfig groups = true) :
    parse_toml_doc (save_config_fallback groups) = some (canonFB groups) := by
  obtain ⟨hall, hnodup⟩ := wellFormedConfig_parts hwf
  unfold parse_toml_doc
  rw [crlfNorm_no_cr _ (fun c hc hceq => no_cr_save_fb groups hall (hceq ▸ hc)),
    show (save_config_fallback groups).length + 1 =
      ((save_config_fallback groups).length + 1 - ticksDocFB groups) +
        ticksDocFB groups from by
      have := ticksDocFB_le_len groups; omega,
    parseDocAux_doc_fb groups _ [] [] hall hnodup
      (fun e he => absurd he (List.not_mem_nil e)),
    List.nil_append]

theorem mem_secTriples {groups : List GroupData}
    {t : String × String × List (String × String)} (ht : t ∈ secTriples groups) :
    ∃ g ∈ groups, t = (g.gname, "aliases", g.aliases) ∨
      t = (g.gname, "env_vars", g.env_vars) ∨
      t = (g.gname, "functions", g.functions) := by
  unfold secTriples at ht
  rw [List.mem_flatten] at ht
  obtain ⟨l, hl, htl⟩ := ht
  rw [List.mem_map] at hl
  obtain ⟨g, hg, rfl⟩ := hl
  rw [List.mem_cons, List.mem_cons, List.mem_singleton] at htl
  exact ⟨g, hg, htl⟩

theorem secTriples_paths_nodup (groups : List GroupData)
    (hnodup : (groups.map GroupData.gname).Nodup) :
    ((secTriples groups).map fun t => ([t.1, t.2.1] : List String)).Nodup := by
  induction groups with
  | nil => exact List.nodup_nil
  | cons g rest ih =>
    have hnodup2 := hnodup
    rw [List.map_cons, List.nodup_cons] at hnodup2
    rw [show secTriples (g :: rest) =
      [(g.gname, "aliases", g.aliases), (g.gname, "env_vars", g.env_vars),
        (g.gname, "functions", g.functions)] ++ secTriples rest from by
        unfold secTriples; rw [List.map_cons, List.flatten_cons]]
    rw [List.map_append, List.nodup_append]
    refine ⟨?_, ih hnodup2.2, ?_⟩
    · rw [show ([(g.gname, "aliases", g.aliases), (g.gname, "env_vars", g.env_vars),
          (g.gname, "functions", g.functions)].map fun t =>
            ([t.1, t.2.1] : List String)) =
        [[g.gname, "aliases"], [g.gname, "env_vars"], [g.gname, "functions"]]
        from rfl]
      rw [List.nodup_cons, List.nodup_cons]
      refine ⟨?_, ?_, List.nodup_singleton _⟩
      · rw [List.mem_cons, List.mem_singleton]
        rintro (h | h)
        · exact path_two_ne_of_snd g.gname (by decide) h
        · exact path_two_ne_of_snd g.gname (by decide) h
      · rw [List.mem_singleton]
        intro h
        exact path_two_ne_of_snd g.gname (by decide) h
    · intro p hp hp2
      rw [List.mem_map] at hp hp2
      obtain ⟨t1, ht1, rfl⟩ := hp
      obtain ⟨t3, ht3, heq⟩ := hp2
      obtain ⟨g2, hg2, hcase2⟩ := mem_secTriples ht3
      have hfst3 : t3.1 = g2.gname := by
        rcases hcase2 with rfl | rfl | rfl <;> rfl
      have hfst1 : t1.1 = g.gname := by
        rw [List.mem_cons, List.mem_cons, List.mem_singleton] at ht1
        rcases ht1 with rfl | rfl | rfl <;> rfl
      have : t3.1 = t1.1 := by
        rw [List.cons.injEq] at heq
        exact heq.1
      rw [hfst3, hfst1] at this
      exact hnodup2.1 (List.mem_map.mpr ⟨g2, hg2, this⟩)

theorem parse_save_tw (groups : List GroupData)
    (hwf : wellFormedConfig groups = true) :
    parse_toml_doc (save_config_tomliw groups) =
      some (canonTW (secTriples groups)) := by
  obtain ⟨hall, hnodup⟩ := wellFormedConfig_parts hwf
  have hb1 : ∀ t ∈ secTriples groups, bareName t.1 = true := by
    intro t ht
    obtain ⟨g, hg, hcase⟩ := mem_secTriples ht
    have := (wellFormedGroup_parts (hall g hg)).1
    rcases hcase with rfl | rfl | rfl <;> exact this
  have hb2 : ∀ t ∈ secTriples groups, bareName t.2.1 = true := by
    intro t ht
    obtain ⟨g, hg, hcase⟩ := mem_secTriples ht
    rcases hcase with rfl | rfl | rfl
    · exact (by decide : bareName "aliases" = true)
    · exact (by decide : bareName "env_vars" = true)
    · exact (by decide : bareName "functions" = true)
  have hgood : ∀ t ∈ secTriples groups, goodItems t.2.2 = true := by
    intro t ht
    obtain ⟨g, hg, hcase⟩ := mem_secTriples ht
    obtain ⟨_, h1, h2, h3⟩ := wellFormedGroup_parts (hall g hg)
    rcases hcase with rfl | rfl | rfl
    · exact h1
    · exact h2
    · exact h3
  unfold parse_toml_doc
  rw [crlfNorm_no_cr _ (fun c hc hceq => no_cr_save_tw groups (hceq ▸ hc)),
    show (save_config_tomliw groups).length + 1 =
      ((save_config_tomliw groups).length + 1 - ticksTW (secTriples groups)) +
        ticksTW (secTriples groups) from by
      have h := ticksTW_le_len (secTriples groups)
      have h2 : joinBlankLines ((secTriples groups).map fun t =>
          sectionTW t.1 t.2.1 t.2.2) = save_config_tomliw groups := rfl
      rw [h2] at h
      omega,
    show save_config_tomliw groups =
      joinBlankLines ((secTriples groups).map fun t =>
        sectionTW t.1 t.2.1 t.2.2) from rfl,
    parseDocAux_docs_tw (secTriples groups) _ [] [] hb1 hb2 hgood
      (fun e he => absurd he (List.not_mem_nil e))
      (secTriples_paths_nodup groups hnodup),
    List.nil_append]

/-- The three tables tomli_w declares for one group. -/
def groupTblsTW (g : GroupData) : TomlTables :=
  [([g.gname, "aliases"], g.aliases), ([g.gname, "env_vars"], g.env_vars),
   ([g.gname, "functions"], g.functions)]

theorem canonTW_secTriples (groups : List GroupData) :
    canonTW (secTriples groups) = (groups.map groupTblsTW).flatten := by
  induction groups with
  | nil => rfl
  | cons g rest ih =>
    unfold canonTW at ih ⊢
    rw [show secTriples (g :: rest) =
      [(g.gname, "aliases", g.aliases), (g.gname, "env_vars", g.env_vars),
        (g.gname, "functions", g.functions)] ++ secTriples rest from by
        unfold secTriples; rw [List.map_cons, List.flatten_cons],
      List.map_append, ih,
      show ((g :: rest).map groupTblsTW).flatten =
        groupTblsTW g ++ (rest.map groupTblsTW).flatten from by
          rw [List.map_cons, List.flatten_cons]]
    rfl

theorem dedupAux_skip (rest seen : List String) :
    ∀ ys, (∀ y ∈ ys, y ∈ seen) → dedupAux (ys ++ rest) seen = dedupAux rest seen := by
  intro ys
  induction ys with
  | nil => intro _; rw [List.nil_append]
  | cons y ys2 ih =>
    intro h
    rw [List.cons_append,
      show dedupAux (y :: (ys2 ++ rest)) seen =
        if y ∈ seen then dedupAux (ys2 ++ rest) seen
        else y :: dedupAux (ys2 ++ rest) (seen ++ [y]) from rfl,
      if_pos (h y (List.mem_cons_self y ys2))]
    exact ih fun y2 h2 => h y2 (List.mem_cons_of_mem y h2)

theorem dedup_blocks (k : GroupData → List String) :
    ∀ (groups : List GroupData) (seen : List String),
    (∀ g ∈ groups, ∀ y ∈ k g, y = g.gname) →
    (∀ g ∈ groups, k g ≠ []) →
    (∀ g ∈ groups, g.gname ∉ seen) →
    (groups.map GroupData.gname).Nodup →
    dedupAux ((groups.map k).flatten) seen = groups.map GroupData.gname := by
  intro groups
  induction groups with
  | nil => intro seen _ _ _ _; rfl
  | cons g rest ih =>
    intro seen hall hne hseen hnodup
    have hnodup2 := hnodup
    rw [List.map_cons, List.nodup_cons] at hnodup2
    rw [List.map_cons, List.flatten_cons]
    cases hkg : k g with
    | nil => exact absurd hkg (hne g (List.mem_cons_self g rest))
    | cons y ys =>
      have hy : y = g.gname :=
        hall g (List.mem_cons_self g rest) y (hkg ▸ List.mem_cons_self y ys)
      rw [List.cons_append,
        show dedupAux (y :: (ys ++ (rest.map k).flatten)) seen =
          if y ∈ seen then dedupAux (ys ++ (rest.map k).flatten) seen
          else y :: dedupAux (ys ++ (rest.map k).flatten) (seen ++ [y]) from rfl,
        if_neg (hy ▸ hseen g (List.mem_cons_self g rest)),
        dedupAux_skip _ _ ys (fun y2 h2 => by
          rw [hall g (List.mem_cons_self g rest) y2
            (hkg ▸ List.mem_cons_of_mem y h2), List.mem_append, List.mem_singleton]
          exact Or.inr hy.symm),
        ih (seen ++ [y])
          (fun g2 h2 => hall g2 (List.mem_cons_of_mem g h2))
          (fun g2 h2 => hne g2 (List.mem_cons_of_mem g h2))
          (fun g2 h2 => by
            rw [List.mem_append, List.mem_singleton]
            rintro (h | h)
            · exact hseen g2 (List.mem_cons_of_mem g h2) h
            · rw [hy] at h
              exact hnodup2.1 (List.mem_map.mpr ⟨g2, h2, h⟩))
          hnodup2.2,
        hy, List.map_cons]

theorem filterMap_canonFB (groups : List GroupData) :
    (canonFB groups).filterMap (fun e => e.1.head?) =
      (groups.map fun g => [g.gname, g.gname, g.gname, g.gname]).flatten := by
  induction groups with
  | nil => rfl
  | cons g rest ih =>
    rw [show canonFB (g :: rest) = groupTblsFB g ++ canonFB rest from by
      unfold canonFB; rw [List.map_cons, List.flatten_cons]]
    rw [List.filterMap_append, ih, List.map_cons, List.flatten_cons]
    rfl

theorem filterMap_canonTW (groups : List GroupData) :
    ((groups.map groupTblsTW).flatten).filterMap (fun e => e.1.head?) =
      (groups.map fun g => [g.gname, g.gname, g.gname]).flatten := by
  induction groups with
  | nil => rfl
  | cons g rest ih =>
    rw [List.map_cons, List.flatten_cons, List.filterMap_append, ih,
      List.map_cons, List.flatten_cons]
    rfl

theorem topNames_canonFB (groups : List GroupData)
    (hnodup : (groups.map GroupData.gname).Nodup) :
    topNames (canonFB groups) = groups.map GroupData.gname := by
  unfold topNames
  rw [filterMap_canonFB]
  exact dedup_blocks (fun g => [g.gname, g.gname, g.gname, g.gname]) groups []
    (by
      intro g _ y hy
      rw [List.mem_cons, List.mem_cons, List.mem_cons, List.mem_singleton] at hy
      rcases hy with rfl | rfl | rfl | rfl <;> rfl)
    (by intro g _; simp)
    (by intro g _; exact List.not_mem_nil _)
    hnodup

theorem topNames_canonTW (groups : List GroupData)
    (hnodup : (groups.map GroupData.gname).Nodup) :
    topNames ((groups.map groupTblsTW).flatten) = groups.map GroupData.gname := by
  unfold topNames
  rw [filterMap_canonTW]
  exact dedup_blocks (fun g => [g.gname, g.gname, g.gname]) groups []
    (by
      intro g _ y hy
      rw [List.mem_cons, List.mem_cons, List.mem_singleton] at hy
      rcases hy with rfl | rfl | rfl <;> rfl)
    (by intro g _; simp)
    (by intro g _; exact List.not_mem_nil _)
    hnodup

theorem sectionKVs_cons_ne (p : List String) (kvs : List (String × String))
    (tbls : TomlTables) (g s : String) (h : p ≠ [g, s]) :
    sectionKVs ((p, kvs) :: tbls) g s = sectionKVs tbls g s := by
  unfold sectionKVs
  rw [List.find?_cons_of_neg _ (by simp only [beq_iff_eq]; exact h)]

theorem sectionKVs_cons_eq (g s : String) (kvs : List (String × String))
    (tbls : TomlTables) :
    sectionKVs (([g, s], kvs) :: tbls) g s = kvs := by
  unfold sectionKVs
  rw [List.find?_cons_of_pos _ (by simp)]

theorem sectionKVs_canonFB (groups : List GroupData)
    (hnodup : (groups.map GroupData.gname).Nodup) :
    ∀ g ∈ groups,
    sectionKVs (canonFB groups) g.gname "aliases" = sortKVs g.aliases ∧
    sectionKVs (canonFB groups) g.gname "env_vars" = sortKVs g.env_vars ∧
    sectionKVs (canonFB groups) g.gname "functions" = sortKVs g.functions := by
  induction groups with
  | nil => intro g hg; exact absurd hg (List.not_mem_nil g)
  | cons hd rest ih =>
    intro g hg
    have hnodup2 := hnodup
    rw [List.map_cons, List.nodup_cons] at hnodup2
    have hcanon : canonFB (hd :: rest) =
        ([hd.gname], []) :: ([hd.gname, "aliases"], sortKVs hd.aliases) ::
        ([hd.gname, "env_vars"], sortKVs hd.env_vars) ::
        ([hd.gname, "functions"], sortKVs hd.functions) :: canonFB rest := by
      unfold canonFB
      rw [List.map_cons, List.flatten_cons]
      rfl
    rcases List.mem_cons.mp hg with rfl | hgr
    · refine ⟨?_, ?_, ?_⟩
      · rw [hcanon,
          sectionKVs_cons_ne _ _ _ _ _ (path_one_ne_two g.gname g.gname "aliases"),
          sectionKVs_cons_eq]
      · rw [hcanon,
          sectionKVs_cons_ne _ _ _ _ _ (path_one_ne_two g.gname g.gname "env_vars"),
          sectionKVs_cons_ne _ _ _ _ _ (path_two_ne_of_snd g.gname (by decide)),
          sectionKVs_cons_eq]
      · rw [hcanon,
          sectionKVs_cons_ne _ _ _ _ _ (path_one_ne_two g.gname g.gname "functions"),
          sectionKVs_cons_ne _ _ _ _ _ (path_two_ne_of_snd g.gname (by decide)),
          sectionKVs_cons_ne _ _ _ _ _ (path_two_ne_of_snd g.gname (by decide)),
          sectionKVs_cons_eq]
    · have hne : hd.gname ≠ g.gname := by
        intro heq
        exact hnodup2.1 (List.mem_map.mpr ⟨g, hgr, heq.symm⟩)
      have hskip : ∀ s : String,
          sectionKVs (canonFB (hd :: rest)) g.gname s =
            sectionKVs (canonFB rest) g.gname s := by
        intro s
        rw [hcanon,
          sectionKVs_cons_ne _ _ _ _ _ (path_one_ne_two hd.gname g.gname s),
          sectionKVs_cons_ne _ _ _ _ _ (path_two_ne_of_fst _ _ hne),
          sectionKVs_cons_ne _ _ _ _ _ (path_two_ne_of_fst _ _ hne),
          sectionKVs_cons_ne _ _ _ _ _ (path_two_ne_of_fst _ _ hne)]
      obtain ⟨h1, h2, h3⟩ := ih hnodup2.2 g hgr
      exact ⟨by rw [hskip, h1], by rw [hskip, h2], by rw [hskip, h3]⟩

theorem sectionKVs_canonTW (groups : List GroupData)
    (hnodup : (groups.map GroupData.gname).Nodup) :
    ∀ g ∈ groups,
    sectionKVs ((groups.map groupTblsTW).flatten) g.gname "aliases" = g.aliases ∧
    sectionKVs ((groups.map groupTblsTW).flatten) g.gname "env_vars" = g.env_vars ∧
    sectionKVs ((groups.map groupTblsTW).flatten) g.gname "functions" = g.functions := by
  induction groups with
  | nil => intro g hg; exact absurd hg (List.not_mem_nil g)
  | cons hd rest ih =>
    intro g hg
    have hnodup2 := hnodup
    rw [List.map_cons, List.nodup_cons] at hnodup2
    have hcanon : ((hd :: rest).map groupTblsTW).flatten =
        ([hd.gname, "aliases"], hd.aliases) ::
        ([hd.gname, "env_vars"], hd.env_vars) ::
        ([hd.gname, "functions"], hd.functions) ::
        (rest.map groupTblsTW).flatten := by
      rw [List.map_cons, List.flatten_cons]
      rfl
    rcases List.mem_cons.mp hg with rfl | hgr
    · refine ⟨?_, ?_, ?_⟩
      · rw [hcanon, sectionKVs_cons_eq]
      · rw [hcanon,
          sectionKVs_cons_ne _ _ _ _ _ (path_two_ne_of_snd g.gname (by decide)),
          sectionKVs_cons_eq]
      · rw [hcanon,
          sectionKVs_cons_ne _ _ _ _ _ (path_two_ne_of_snd g.gname (by decide)),
          sectionKVs_cons_ne _ _ _ _ _ (path_two_ne_of_snd g.gname (by decide)),
          sectionKVs_cons_eq]
    · have hne : hd.gname ≠ g.gname := by
        intro heq
        exact hnodup2.1 (List.mem_map.mpr ⟨g, hgr, heq.symm⟩)
      have hskip : ∀ s : String,
          sectionKVs (((hd :: rest).map groupTblsTW).flatten) g.gname s =
            sectionKVs ((rest.map groupTblsTW).flatten) g.gname s := by
        intro s
        rw [hcanon,
          sectionKVs_cons_ne _ _ _ _ _ (path_two_ne_of_fst _ _ hne),
          sectionKVs_cons_ne _ _ _ _ _ (path_two_ne_of_fst _ _ hne),
          sectionKVs_cons_ne _ _ _ _ _ (path_two_ne_of_fst _ _ hne)]
      obtain ⟨h1, h2, h3⟩ := ih hnodup2.2 g hgr
      exact ⟨by rw [hskip, h1], by rw [hskip, h2], by rw [hskip, h3]⟩

theorem config_load_canonFB (groups : List GroupData)
    (hnodup : (groups.map GroupData.gname).Nodup) :
    config_load_groups (canonFB groups) = groups.map fun g =>
      ⟨g.gname, sortKVs g.aliases, sortKVs g.env_vars, sortKVs g.functions⟩ := by
  unfold config_load_groups
  rw [topNames_canonFB groups hnodup, List.map_map]
  apply List.map_congr_left
  intro g hg
  obtain ⟨h1, h2, h3⟩ := sectionKVs_canonFB groups hnodup g hg
  simp only [Function.comp_apply, h1, h2, h3]

theorem config_load_canonTW (groups : List GroupData)
    (hnodup : (groups.map GroupData.gname).Nodup) :
    config_load_groups (canonTW (secTriples groups)) = groups := by
  rw [canonTW_secTriples]
  unfold config_load_groups
  rw [topNames_canonTW groups hnodup, List.map_map]
  refine Eq.trans (List.map_congr_left ?_) (List.map_id groups)
  intro g hg
  obtain ⟨h1, h2, h3⟩ := sectionKVs_canonTW groups hnodup g hg
  simp only [Function.comp_apply, h1, h2, h3, id]

theorem getGroup_map_name (f : GroupData → GroupData)
    (hf : ∀ g, (f g).gname = g.gname) :
    ∀ (groups : List GroupData), (groups.map GroupData.gname).Nodup →
    ∀ g ∈ groups, getGroup (groups.map f) g.gname = some (f g) := by
  intro groups
  induction groups with
  | nil => intro _ g hg; exact absurd hg (List.not_mem_nil g)
  | cons hd rest ih =>
    intro hnodup g hg
    have hnodup2 := hnodup
    rw [List.map_cons, List.nodup_cons] at hnodup2
    rw [List.map_cons]
    unfold getGroup
    rcases List.mem_cons.mp hg with rfl | hgr
    · rw [List.find?_cons_of_pos _ (by simp [hf])]
    · have hne : hd.gname ≠ g.gname := by
        intro heq
        exact hnodup2.1 (List.mem_map.mpr ⟨g, hgr, heq.symm⟩)
      rw [List.find?_cons_of_neg _ (by simp only [hf, beq_iff_eq]; exact hne)]
      exact ih hnodup2.2 g hgr

/-- Claim C6: save followed by load keeps an explicitly created empty group,
amended.  The unrestricted claim fails (a group whose name is not a bare
TOML key is mangled by the fallback writer); for every well-formed
configuration — bare group names without duplicates, bare item keys without
duplicates per section, values free of stray control characters — a group
with all three maps empty survives the round trip by name with all three
maps still empty, under both the tomli_w writer and the fallback writer. -/
theorem empty_group_roundTrip_amended (groups : List GroupData) (g : GroupData)
    (hwf : wellFormedConfig groups = true) (hg : g ∈ groups)
    (ha : g.aliases = []) (he : g.env_vars = []) (hfn : g.functions = []) :
    (∃ loaded, fallback_config_roundTrip groups = some loaded ∧
      getGroup loaded g.gname = some ⟨g.gname, [], [], []⟩) ∧
    (∃ loaded, tomliw_config_roundTrip groups = some loaded ∧
      getGroup loaded g.gname = some ⟨g.gname, [], [], []⟩) := by
  obtain ⟨hall, hnodup⟩ := wellFormedConfig_parts hwf
  obtain ⟨n, A, E, F⟩ := g
  have ha2 : A = [] := ha
  have he2 : E = [] := he
  have hfn2 : F = [] := hfn
  subst ha2 he2 hfn2
  constructor
  · refine ⟨config_load_groups (canonFB groups), ?_, ?_⟩
    · unfold fallback_config_roundTrip
      rw [parse_save_fb groups hwf]
      rfl
    · rw [config_load_canonFB groups hnodup]
      have hget := getGroup_map_name
        (fun g2 => ⟨g2.gname, sortKVs g2.aliases, sortKVs g2.env_vars,
          sortKVs g2.functions⟩) (fun _ => rfl) groups hnodup ⟨n, [], [], []⟩ hg
      exact hget
  · refine ⟨groups, ?_, ?_⟩
    · unfold tomliw_config_roundTrip
      rw [parse_save_tw groups hwf,
        show Option.map config_load_groups (some (canonTW (secTriples groups))) =
          some (config_load_groups (canonTW (secTriples groups))) from rfl,
        config_load_canonTW groups hnodup]
    · have hget := getGroup_map_name (fun g2 => g2) (fun _ => rfl) groups hnodup
        ⟨n, [], [], []⟩ hg
      rw [show groups.map (fun g2 => g2) = groups from
        Eq.trans (List.map_congr_left fun _ _ => rfl) (List.map_id groups)] at hget
      exact hget

theorem empty_group_roundTrip_amended_witness :
    wellFormedConfig [⟨"emptyg", [], [], []⟩,
      ⟨"work", [("ll", "ls -la")], [], []⟩] = true ∧
    (⟨"emptyg", [], [], []⟩ : GroupData) ∈
      [(⟨"emptyg", [], [], []⟩ : GroupData), ⟨"work", [("ll", "ls -la")], [], []⟩] ∧
    ((∃ loaded, fallback_config_roundTrip [⟨"emptyg", [], [], []⟩,
        ⟨"work", [("ll", "ls -la")], [], []⟩] = some loaded ∧
      getGroup loaded "emptyg" = some ⟨"emptyg", [], [], []⟩) ∧
     (∃ loaded, tomliw_config_roundTrip [⟨"emptyg", [], [], []⟩,
        ⟨"work", [("ll", "ls -la")], [], []⟩] = some loaded ∧
      getGroup loaded "emptyg" = some ⟨"emptyg", [], [], []⟩)) :=
  ⟨by decide, by decide,
    empty_group_roundTrip_amended
      [⟨"emptyg", [], [], []⟩, ⟨"work", [("ll", "ls -la")], [], []⟩]
      ⟨"emptyg", [], [], []⟩ (by decide) (by decide) rfl rfl rfl⟩

end Shtick
